import Mathlib

/-!
Verification of the yoyo migration engine vendored under
src/anki_fantasy/_vendor/yoyo.

The Python modules are shallowly embedded: pure fragments become Lean
functions, the database-facing operations act on explicit table states
(lists of rows), and exceptions become Except / Option results.  Each
definition carries a comment naming the Python function it embeds.
-/

namespace YoyoSpec

/-! ## Definitions -/

/-! ### Lock table (backends/base.py)

The lock table (create_lock_table_sql) has columns locked, ctime, pid.
A table state is modelled as a list of rows. -/

/-- Row of the yoyo_lock table: columns locked, ctime, pid. -/
structure LockRow where
  locked : Nat
  ctime : Nat
  pid : Nat
deriving DecidableEq

/-- Embeds DatabaseBackend._delete_lock_row: executes
DELETE FROM lock_table WHERE pid = :pid, i.e. keeps exactly the rows whose
pid column differs from the argument. -/
def deleteLockRow (table : List LockRow) (pid : Nat) : List LockRow :=
  table.filter (fun r => decide (r.pid ≠ pid))

/-- Embeds DatabaseBackend.break_lock: executes
DELETE FROM lock_table (no WHERE clause), removing every row. -/
def breakLock (_table : List LockRow) : List LockRow :=
  []

/-! ### Migration.load dependency resolution (migrations.py)

Migration.load materialises steps and dependencies.  After the migration
module/sql source is read, the declared dependency ids are resolved against
the process-wide registry Migration.__all_migrations; an id that resolves to
no known migration puts None into the resolved set and load raises
BadMigration before any steps are created.  The registry is modelled by the
list of known migration ids; a registry entry is identified by its id. -/

/-- Outcome of the dependency-resolution part of Migration.load. -/
inductive LoadOutcome where
  /-- exceptions.BadMigration raised (could not resolve dependencies). -/
  | badMigration
  /-- load succeeded; carries the resolved dependency ids. -/
  | loaded (depends : List String)
deriving DecidableEq

/-- Embeds the tail of Migration.load (migrations.py):
the set comprehension over __all_migrations.get(id, None) followed by the
None-membership check that raises BadMigration.  File reading and module
execution, which precede this fragment, are elided. -/
def loadResolve (allMigrations : List String) (depends : List String) : LoadOutcome :=
  let resolved := depends.map (fun d => if d ∈ allMigrations then some d else none)
  if none ∈ resolved then .badMigration
  else .loaded (resolved.reduceOption)

/-! ### MigrationList (migrations.py)

A migration is identified by its id; the tag field stands for the rest of
the object so that distinct migrations with equal ids are representable. -/

/-- Model of a Migration object as seen by MigrationList: its id plus an
opaque tag distinguishing different objects. -/
structure Mig where
  mid : String
  tag : Nat
deriving DecidableEq

/-- Errors raised by MigrationList operations. -/
inductive MLError where
  /-- exceptions.MigrationConflict carrying the duplicated id. -/
  | migrationConflict (id : String)
  /-- TypeError: the int-index branch of __setitem__ iterates a Migration
  object, which is not iterable. -/
  | typeError
  /-- IndexError from items[n] with n out of range. -/
  | indexError
deriving DecidableEq

/-- State of a MigrationList: items, the keys id set, and post_apply. -/
structure MList where
  items : List Mig
  keys : List String
  post_apply : List Mig
deriving DecidableEq

/-- Embeds MigrationList.check_conflicts: walking the items with a Counter,
returns the id of the first item whose id was already seen, if any. -/
def checkConflicts (seen : List String) : List Mig → Option String
  | [] => none
  | m :: rest => if m.mid ∈ seen then some m.mid else checkConflicts (m.mid :: seen) rest

/-- Embeds MigrationList.__init__: stores items and post_apply, builds the
keys set from the item ids and runs check_conflicts, raising
MigrationConflict on a duplicate id. -/
def mkMList (items : List Mig) (post : List Mig) : Except MLError MList :=
  match checkConflicts [] items with
  | some i => .error (.migrationConflict i)
  | none => .ok ⟨items, items.map Mig.mid, post⟩

/-- Embeds MigrationList.insert: a new id already in keys raises
MigrationConflict (before any mutation), otherwise the item is inserted at
position i and its id added to keys. -/
def MList.insertAt (ml : MList) (i : Nat) (x : Mig) : Except MLError MList :=
  if x.mid ∈ ml.keys then .error (.migrationConflict x.mid)
  else .ok ⟨ml.items.insertIdx i x, x.mid :: ml.keys, ml.post_apply⟩

/-- Embeds MutableSequence.append, which MigrationList inherits: it calls
insert(len(self), value). -/
def MList.appendMig (ml : MList) (x : Mig) : Except MLError MList :=
  ml.insertAt ml.items.length x

/-- Embeds MigrationList.__setitem__ for an int index n.  In the source,
removing = self.items[n] is a single Migration, so isinstance(removing,
list) is False and the branch guarded by `not isinstance(removing, list)`
runs; its body iterates `removing` (set([item.id for item in removing])),
which raises TypeError because a Migration is not iterable.  The two branch
bodies plainly belong to the opposite isinstance outcomes.  An out-of-range
n raises IndexError at items[n] first. -/
def MList.setitemInt (ml : MList) (n : Nat) (_ob : Mig) : Except MLError MList :=
  if n < ml.items.length then .error .typeError
  else .error .indexError

/-- Embeds MigrationList.__setitem__ for a slice a:b (0 ≤ a ≤ b): removing
is the sublist items[a:b]; an id of the assigned list that is in keys but
not among the removed ids raises MigrationConflict; otherwise the slice is
replaced.  Mirroring the source, keys.difference_update(removing) is passed
the Migration objects themselves rather than their ids and therefore
removes nothing from the id set; the new ids are then added. -/
def MList.setitemSlice (ml : MList) (a b : Nat) (obs : List Mig) : Except MLError MList :=
  let removing := (ml.items.drop a).take (b - a)
  let removeIds := removing.map Mig.mid
  let newIds := obs.map Mig.mid
  match newIds.find? (fun i => decide (i ∈ ml.keys ∧ i ∉ removeIds)) with
  | some i => .error (.migrationConflict i)
  | none => .ok ⟨(ml.items.take a) ++ obs ++ (ml.items.drop b), ml.keys ++ newIds, ml.post_apply⟩

/-- Embeds MigrationList.__getitem__ for a slice a:b: returns
self.__class__(self.items[a:b]); the constructor is called without a
post_apply argument, so the new list's post_apply defaults to empty. -/
def MList.getitemSlice (ml : MList) (a b : Nat) : Except MLError MList :=
  mkMList ((ml.items.drop a).take (b - a)) []

/-- Embeds MigrationList.filter: self.__class__([m for m in self if
predicate(m)], self.post_apply). -/
def MList.filterMl (ml : MList) (p : Mig → Bool) : Except MLError MList :=
  mkMList (ml.items.filter p) ml.post_apply

/-- Embeds MigrationList.replace: self.__class__(newmigrations,
self.post_apply). -/
def MList.replaceMl (ml : MList) (news : List Mig) : Except MLError MList :=
  mkMList news ml.post_apply

/-! ### mark_one / unmark_one bookkeeping (backends/base.py)

The applied-migration table (v2 schema, internalmigrations/v2.py) has
columns migration_hash (PRIMARY KEY), migration_id, applied_at_utc; the log
table rows carry a uuid id, the migration hash and id, and the operation.
Timestamps and uuids are modelled by counters in the backend state.
ensure_internal_schema_updated is a no-op once the internal schema is
current and is elided. -/

/-- Row of the _yoyo_migrations table. -/
structure AppliedRow where
  migration_hash : String
  migration_id : String
  applied_at_utc : Nat
deriving DecidableEq

/-- Operation column of a _yoyo_log row. -/
inductive LogOp where
  | opApply
  | opRollback
  | opMark
  | opUnmark
deriving DecidableEq

/-- Row of the _yoyo_log table (username/hostname/comment elided). -/
structure LogRow where
  lid : Nat
  migration_hash : String
  migration_id : String
  operation : LogOp
deriving DecidableEq

/-- Bookkeeping state of a backend: both tables plus a clock and a uuid
counter supplying fresh timestamps and log ids. -/
structure BState where
  migrationTable : List AppliedRow
  logTable : List LogRow
  clock : Nat
  uuidCtr : Nat
deriving DecidableEq

/-- Database error surfaced by the driver, e.g. a primary-key violation. -/
inductive DbError where
  | integrityError
deriving DecidableEq

/-- Migration as seen by mark_one/unmark_one: its hash and id. -/
structure MigRef where
  hash : String
  mid : String
deriving DecidableEq

/-- Embeds executing mark_migration_sql: INSERT INTO the migration table.
migration_hash is the primary key, so inserting an already-present hash
raises the driver's DatabaseError and leaves the table unchanged. -/
def insertApplied (s : BState) (m : MigRef) : Except DbError BState :=
  if m.hash ∈ s.migrationTable.map AppliedRow.migration_hash then
    .error .integrityError
  else
    .ok { s with
      migrationTable := s.migrationTable ++ [⟨m.hash, m.mid, s.clock⟩]
      clock := s.clock + 1 }

/-- Embeds DatabaseBackend.log_migration: INSERT a row into the log table
with a fresh uuid and the given operation. -/
def logMigration (s : BState) (m : MigRef) (op : LogOp) : BState :=
  { s with
    logTable := s.logTable ++ [⟨s.uuidCtr, m.hash, m.mid, op⟩]
    uuidCtr := s.uuidCtr + 1 }

/-- Embeds DatabaseBackend.mark_one with log=True: execute
mark_migration_sql then log the mark operation. -/
def markOne (s : BState) (m : MigRef) : Except DbError BState := do
  let s1 ← insertApplied s m
  .ok (logMigration s1 m .opMark)

/-- Embeds DatabaseBackend.unmark_one with log=True: execute
unmark_migration_sql (DELETE WHERE migration_hash = :migration_hash) then
log the unmark operation. -/
def unmarkOne (s : BState) (m : MigRef) : BState :=
  let s1 := { s with
    migrationTable := s.migrationTable.filter (fun r => decide (r.migration_hash ≠ m.hash)) }
  logMigration s1 m .opUnmark

/-- Calling mark_one and then unmark_one on the same migration. -/
def markThenUnmark (s : BState) (m : MigRef) : Except DbError BState := do
  let s1 ← markOne s m
  .ok (unmarkOne s1 m)

/-! ### Migration.process_steps (migrations.py)

Steps are the TransactionWrapper/Transactionless objects held in
Migration.steps: invoking one in a direction either returns or raises the
backend's DatabaseError.  Each step is modelled by its id and the outcome
of each direction; a run is modelled by the list of step invocations
(the trace) plus the re-raised error, if any.  The surrounding
backend.transaction()/disable_transactions() context of process_steps
manages the connection, not the steps, and is not part of the trace. -/

/-- Direction argument of process_steps. -/
inductive Direction where
  | dapply
  | drollback
deriving DecidableEq

/-- Outcome of invoking one step action. -/
inductive Outcome where
  | ok
  | dbError
deriving DecidableEq

/-- Model of one element of Migration.steps. -/
structure PStep where
  sid : Nat
  applyOutcome : Outcome
  rollbackOutcome : Outcome
deriving DecidableEq

/-- Invoking getattr(step, direction). -/
def PStep.act (st : PStep) : Direction → Outcome
  | .dapply => st.applyOutcome
  | .drollback => st.rollbackOutcome

/-- Embeds reverse = a dictionary flipping apply and rollback. -/
def Direction.flip : Direction → Direction
  | .dapply => .drollback
  | .drollback => .dapply

/-- One recorded step invocation. -/
inductive Event where
  | called (dir : Direction) (sid : Nat)
deriving DecidableEq

/-- Embeds the unwind loop of process_steps:
for step in reversed(executed_steps): getattr(step, reverse)(backend),
wrapped in a single try/except DatabaseError whose handler only logs.  A
failing rollback therefore terminates the whole loop: later (earlier-
executed) steps are not rolled back.  The argument list is already
reversed. -/
def unwindTrace (dir : Direction) : List PStep → List Event
  | [] => []
  | st :: rest =>
    if st.act dir = .ok then .called dir st.sid :: unwindTrace dir rest
    else [.called dir st.sid]

/-- Embeds the main loop of process_steps over the remaining steps,
carrying executed_steps and the trace so far.  On a DatabaseError from a
step, when the backend lacks transactional DDL or the migration disabled
transactions the executed steps are unwound in reverse; the original error
(identified by the failing step id) is re-raised either way and no further
step runs. -/
def processStepsGo (dir : Direction) (hasTDdl useTrans : Bool) :
    List PStep → List PStep → List Event → List Event × Option Nat
  | [], _executed, trace => (trace, none)
  | st :: rest, executed, trace =>
    let trace' := trace ++ [.called dir st.sid]
    if st.act dir = .ok then
      processStepsGo dir hasTDdl useTrans rest (executed ++ [st]) trace'
    else
      if hasTDdl = false ∨ useTrans = false then
        (trace' ++ unwindTrace dir.flip executed.reverse, some st.sid)
      else
        (trace', some st.sid)

/-- Embeds Migration.process_steps (force=False): steps are taken in
reverse for the rollback direction; returns the invocation trace and the
id of the step whose error was re-raised, if any. -/
def processSteps (steps : List PStep) (dir : Direction) (hasTDdl useTrans : Bool) :
    List Event × Option Nat :=
  let steps' := if dir = .drollback then steps.reverse else steps
  processStepsGo dir hasTDdl useTrans steps' [] []

/-- Specification of the unwind produced after a failed step, phrased
declaratively: the rollbacks of the executed steps in reverse order up to
and including the first one that itself raises. -/
def specUnwind (dir : Direction) (executed : List PStep) : List Event :=
  let r := executed.reverse
  (r.takeWhile (fun st => decide (st.act dir = .ok))).map (fun st => .called dir st.sid)
    ++ ((r.dropWhile (fun st => decide (st.act dir = .ok))).take 1).map
        (fun st => .called dir st.sid)

/-! ### change_param_style (utils.py)

The SQL text is modelled as its character list.  The source compiles the
pattern (?<![:\x5c]):(k1|k2|...)(?=\W|$) over the bind-parameter names and
uses it twice: re.sub to rewrite the SQL and finditer to collect the
matched names in occurrence order; both passes are embedded as one scan
returning the rewritten text together with the matched names.  Word
characters are modelled as ASCII alphanumerics plus underscore. -/

/-- Word character test for the re \W lookahead (ASCII fragment). -/
def isWordChar (c : Char) : Bool :=
  c.isAlphanum || c = '_'

/-- DBAPI paramstyle values accepted by change_param_style. -/
inductive ParamStyle where
  | qmark
  | numeric
  | format
  | pyformat
  | named
deriving DecidableEq

/-- Embeds the param_gen_* replacement functions.  The counter argument
models the shared itertools.count(1) consumed by param_gen_numeric; the
other styles ignore it. -/
def paramGen (style : ParamStyle) (counter : Nat) (name : String) : String :=
  match style with
  | .qmark => "?"
  | .numeric => ":" ++ toString counter
  | .format => "%s"
  | .pyformat => "%(" ++ name ++ ")s"
  | .named => ""

/-- Embeds one alternative of the pattern at the position right after a
colon: the text starts with the key and the lookahead (?=\W|$) holds at
the key's end. -/
def keyMatches (k : String) (rest : List Char) : Bool :=
  (decide (rest.take k.data.length = k.data)) &&
    (match rest.drop k.data.length with
      | [] => true
      | c :: _ => !isWordChar c)

/-- Embeds the alternation (k1|k2|...): alternatives are tried in the
order the names appear in the bind-parameters dict, first match wins. -/
def findKeyMatch (keys : List String) (rest : List Char) : Option String :=
  keys.find? (fun k => keyMatches k rest)

/-- Embeds the re.sub/finditer scan of change_param_style: walk the SQL
left to right carrying the character preceding the current position (for
the (?<![:\x5c]) lookbehind) and the numeric counter; at an eligible colon
the first matching parameter name is rewritten through param_gen and
recorded, and scanning resumes after the matched name. -/
def subScan (keys : List String) (style : ParamStyle) :
    Option Char → Nat → List Char → List Char × List String
  | _, _, [] => ([], [])
  | prev, cnt, c :: rest =>
    if c = ':' ∧ prev ≠ some ':' ∧ prev ≠ some '\\' then
      match findKeyMatch keys rest with
      | some k =>
        let res := subScan keys style (some ((':' :: k.data).getLast (by simp))) (cnt + 1)
          (rest.drop k.data.length)
        ((paramGen style cnt k).data ++ res.1, k :: res.2)
      | none =>
        let res := subScan keys style (some c) cnt rest
        (c :: res.1, res.2)
    else
      let res := subScan keys style (some c) cnt rest
      (c :: res.1, res.2)
termination_by _ _ l => l.length
decreasing_by
  · simp only [List.length_drop, List.length_cons]
    omega
  · simp only [List.length_cons]
    omega
  · simp only [List.length_cons]
    omega

/-- Modelled from the spec: a scan that rewrites exactly those colon-name
tokens whose name is a bound parameter, that are not preceded by a
backslash or another colon, and that are not followed by a word character.
The name of a candidate token is the maximal word-character run after the
colon, and the bound names are consulted as a set (order-irrelevant). -/
def specScan (keySet : List String) (style : ParamStyle) :
    Option Char → Nat → List Char → List Char × List String
  | _, _, [] => ([], [])
  | prev, cnt, c :: rest =>
    let w := rest.takeWhile isWordChar
    if c = ':' ∧ prev ≠ some ':' ∧ prev ≠ some '\\' ∧ w ≠ [] ∧ String.mk w ∈ keySet then
      let res := specScan keySet style (some ((':' :: w).getLast (by simp))) (cnt + 1)
        (rest.drop w.length)
      ((paramGen style cnt (String.mk w)).data ++ res.1, String.mk w :: res.2)
    else
      let res := specScan keySet style (some c) cnt rest
      (c :: res.1, res.2)
termination_by _ _ l => l.length
decreasing_by
  · simp only [List.length_drop, List.length_cons]
    omega
  · simp only [List.length_cons]
    omega

/-- Result component of change_param_style: a mapping for the named
styles, a positional tuple for qmark/numeric/format. -/
inductive BindResult (α : Type) where
  | dict (params : List (String × α))
  | tup (params : List (Option α))
deriving DecidableEq

/-- Value bound to a parameter name (bind_parameters[name]). -/
def lookupValue {α : Type} (bind : List (String × α)) (name : String) : Option α :=
  (bind.find? (fun kv => kv.1 == name)).map Prod.snd

/-- Embeds utils.change_param_style: named passes the SQL through; an
empty mapping returns an empty tuple/dict; otherwise the SQL is rewritten
by the pattern scan, and for the positional styles the bound values are
collected per matched occurrence, in occurrence order. -/
def change_param_style {α : Type} (target : ParamStyle) (sql : String)
    (bind : List (String × α)) : String × BindResult α :=
  if target = .named then (sql, .dict bind)
  else if bind.isEmpty then
    (sql, if target = .pyformat then .dict [] else .tup [])
  else
    let keys := bind.map Prod.fst
    let res := subScan keys target none 1 sql.data
    if target = .pyformat then (String.mk res.1, .dict bind)
    else (String.mk res.1, .tup (res.2.map (lookupValue bind)))

/-! ### topological_sort (topologicalsort.py)

Items are modelled as naturals and assumed distinct (the caller passes a
list of distinct Migration objects); dependency_graph is a total function
(graph.get(n, []) defaults to no dependencies).  For distinct items the
ordering dict maps each item to its position, heap entries carry distinct
keys, and the heap of (index, item) pairs is modelled as a list kept
sorted by index: list(enumerate(items)) is ascending, hence a valid heap,
heappush is sorted insertion and heappop takes the head.  The generator's
yields are accumulated in the output list (whose member set is the Python
output set); the blocked_on defaultdict is a function to member lists
(keys with empty lists are absent; only in-set nodes ever become keys
because blockers are filtered by membership in ordering). -/

/-- State of the topological_sort loop. -/
structure TopoState where
  pqueue : List (Nat × Nat)
  output : List Nat
  blocked : List Nat
  blockedOn : Nat → List Nat
  seen : Nat

/-- Embeds heappush on a heap with pairwise-distinct keys: sorted
insertion by the first component. -/
def heapInsert (p : Nat × Nat) : List (Nat × Nat) → List (Nat × Nat)
  | [] => [p]
  | q :: qs => if p.1 ≤ q.1 then p :: q :: qs else q :: heapInsert p qs

/-- Result of the embedded topological_sort. -/
inductive TopoResult where
  /-- the generator was exhausted normally; carries the yielded sequence. -/
  | ok (out : List Nat)
  /-- CycleError; carries the second args element: the unresolved nodes
  sorted by original discovery order. -/
  | cycleError (nodes : List Nat)
  /-- ValueError for a dependency on a node absent from the input. -/
  | nonexistentNode (node : Nat)
  /-- AssertionError in raise_cycle_error, or fuel exhaustion (neither is
  reachable from topological_sort; the fuel chosen suffices). -/
  | internalError
deriving DecidableEq

/-- Embeds raise_cycle_error: first look for a blocked_on key outside the
ordering (impossible when called from topological_sort, whose blockers are
filtered by ordering membership), then report the pqueue members together
with all blocked_on values, sorted by ordering - i.e. in items order. -/
def raiseCycleError (items : List Nat) (s : TopoState) : TopoResult :=
  let keyList := items.filter (fun d => decide (s.blockedOn d ≠ []))
  match keyList.find? (fun d => decide (d ∉ items)) with
  | some bad => .nonexistentNode bad
  | none =>
    let unresolved := items.filter (fun x =>
      decide (x ∈ s.pqueue.map Prod.snd ∨ ∃ d ∈ items, x ∈ s.blockedOn d))
    if unresolved ≠ [] then .cycleError unresolved else .internalError

/-- Embeds blocked_on.pop(n, []): the map without key n. -/
def popBlockedOn (n : Nat) (bOn : Nat → List Nat) : Nat → List Nat :=
  fun d => if d = n then [] else bOn d

/-- Embeds the push-back filter of the yield branch: the members of the
popped blocked_on[n] present in no other blocked_on value. -/
def emitToPush (items : List Nat) (n : Nat) (s : TopoState) : List Nat :=
  (s.blockedOn n).filter (fun b => decide (∀ d ∈ items, b ∉ popBlockedOn n s.blockedOn d))

/-- Embeds the yield branch of the loop: record n in output, drop it from
blocked, pop blocked_on[n] and re-queue every member no longer present in
any other blocked_on value. -/
def emitUpdate (items : List Nat) (n : Nat) (rest : List (Nat × Nat))
    (s : TopoState) : TopoState :=
  { pqueue := (emitToPush items n s).foldl (fun pq b => heapInsert (items.indexOf b, b) pq) rest
    output := s.output ++ [n]
    blocked := s.blocked.erase n
    blockedOn := popBlockedOn n s.blockedOn
    seen := 0 }

/-- Embeds blocked_on[b].add(n) over all blockers b (set add: no
duplicate entry is created). -/
def addBlockedOn (n : Nat) (blockers : List Nat) (bOn : Nat → List Nat) : Nat → List Nat :=
  fun d => if d ∈ blockers then (if n ∈ bOn d then bOn d else n :: bOn d) else bOn d

/-- Embeds the blocking branch of the loop for an n not already blocked:
add n to blocked and to blocked_on[b] for each blocker b. -/
def blockUpdate (n : Nat) (rest : List (Nat × Nat)) (blockers : List Nat)
    (s : TopoState) : TopoState :=
  { pqueue := rest
    output := s.output
    blocked := n :: s.blocked
    blockedOn := addBlockedOn n blockers s.blockedOn
    seen := 0 }

/-- Embeds the while loop of topological_sort, fuel-recursive.  Each
iteration checks the stall counter, pops the least-index entry, computes
the blockers of the popped item (its dependencies neither yielded nor
outside the ordering) and either yields it or blocks it; when the queue
empties, a nonempty blocked_on raises the cycle error. -/
def topoLoop (items : List Nat) (deps : Nat → List Nat) :
    Nat → TopoState → TopoResult
  | 0, _ => .internalError
  | fuel + 1, s =>
    match s.pqueue with
    | [] =>
      if items.any (fun d => decide (s.blockedOn d ≠ [])) then raiseCycleError items s
      else .ok s.output
    | (_ix, n) :: rest =>
      if s.seen = (rest.length + 1) + s.blocked.length then raiseCycleError items s
      else
        let blockers := (deps n).filter (fun d => decide (d ∉ s.output ∧ d ∈ items))
        if blockers = [] then
          topoLoop items deps fuel (emitUpdate items n rest s)
        else
          if n ∈ s.blocked then
            topoLoop items deps fuel { s with pqueue := rest, seen := s.seen + 1 }
          else
            topoLoop items deps fuel (blockUpdate n rest blockers s)

/-- Embeds topological_sort (fully consumed): the loop starts from the
enumerated item list with empty output/blocked/blocked_on.  The fuel
(|items|+1)^2 strictly exceeds the maximal number of loop iterations, as
established by the simulation proof below. -/
def topological_sort (items : List Nat) (deps : Nat → List Nat) : TopoResult :=
  topoLoop items deps ((items.length + 1) * (items.length + 1))
    { pqueue := items.enum, output := [], blocked := [], blockedOn := fun _ => [], seen := 0 }

/-- Readiness: every in-set dependency of x has been emitted. -/
def readyB (items : List Nat) (deps : Nat → List Nat) (emitted : List Nat) (x : Nat) : Bool :=
  (deps x).all (fun d => decide (d ∉ items ∨ d ∈ emitted))

/-- Reference greedy emission: repeatedly emit the first ready item of the
remaining list (kept in discovery order); returns the emitted sequence and
the stuck remainder. -/
def kahnAux (items : List Nat) (deps : Nat → List Nat) :
    List Nat → List Nat → List Nat × List Nat
  | r, emitted =>
    match hf : r.find? (readyB items deps emitted) with
    | none => (emitted, r)
    | some x => kahnAux items deps (r.erase x) (emitted ++ [x])
termination_by r _ => r.length
decreasing_by
  have hx : x ∈ r := List.mem_of_find?_eq_some hf
  have := List.length_erase_of_mem hx
  have : 0 < r.length := List.length_pos_of_mem hx
  omega

/-- Valid topological order: every element appears after each of its
in-set dependencies. -/
def IsTopoOrder (items : List Nat) (deps : Nat → List Nat) (out : List Nat) : Prop :=
  ∀ x ∈ out, ∀ d ∈ deps x, d ∈ items → out.indexOf d < out.indexOf x

/-- Deterministic greedy order: a complete enumeration of the items in
which every position holds an item all of whose in-set dependencies were
already emitted, and which has the smallest input index among all such
candidates. -/
def IsGreedyOrder (items : List Nat) (deps : Nat → List Nat) (l : List Nat) : Prop :=
  l.length = items.length ∧
  ∀ k (hk : k < l.length),
    l.get ⟨k, hk⟩ ∈ items ∧ l.get ⟨k, hk⟩ ∉ l.take k ∧
    (∀ d ∈ deps (l.get ⟨k, hk⟩), d ∈ items → d ∈ l.take k) ∧
    ∀ y ∈ items, y ∉ l.take k → (∀ d ∈ deps y, d ∈ items → d ∈ l.take k) →
      items.indexOf (l.get ⟨k, hk⟩) ≤ items.indexOf y

/-- Acyclicity of the in-set dependency graph, in the standard DAG rank
characterisation: some measure strictly decreases along every in-set
dependency edge. -/
def Acyclic (items : List Nat) (deps : Nat → List Nat) : Prop :=
  ∃ rank : Nat → Nat, ∀ x ∈ items, ∀ d ∈ deps x, d ∈ items → rank d < rank x

/-- One in-set dependency edge. -/
def depStep (items : List Nat) (deps : Nat → List Nat) (x d : Nat) : Prop :=
  d ∈ deps x ∧ d ∈ items

/-- Membership of a node in some dependency cycle: a nonempty in-set
dependency path from the node back to itself. -/
def InCycle (items : List Nat) (deps : Nat → List Nat) (x : Nat) : Prop :=
  Relation.TransGen (depStep items deps) x x

/-- Emittable nodes: those the greedy emission can eventually yield - the
least set of in-set nodes all of whose in-set dependencies are emittable.
The stuck remainder of a sort is exactly the non-emittable items. -/
inductive Emittable (items : List Nat) (deps : Nat → List Nat) : Nat → Prop where
  | intro (x : Nat) (hx : x ∈ items)
      (hdeps : ∀ d ∈ deps x, d ∈ items → Emittable items deps d) :
      Emittable items deps x

/-- Cyclic three-node graph for the C3 counterexample: 0 and 1 depend on
each other and 2 depends on 1, so 2 is blocked downstream of the cycle
without lying on any cycle. -/
def cexDeps : Nat → List Nat :=
  fun x => if x = 0 then [1] else if x = 1 then [0] else if x = 2 then [1] else []

/-- Two-node cycle used by the C3 witness. -/
def cexDeps2 : Nat → List Nat :=
  fun x => if x = 0 then [1] else if x = 1 then [0] else []

/-! ## Theorems -/

/-! ### C7: lock release is keyed by pid -/

/-- C7: releasing the lock via _delete_lock_row with pid p deletes only
rows whose pid column equals p; a row holding a different process id
survives a normal release, and only break_lock clears unconditionally. -/
theorem deleteLockRow_only_own_pid (table : List LockRow) (p : Nat) :
    (∀ r ∈ table, r.pid ≠ p → r ∈ deleteLockRow table p) ∧
    (∀ r ∈ deleteLockRow table p, r ∈ table ∧ r.pid ≠ p) ∧
    breakLock table = [] := by
  refine ⟨?_, ?_, rfl⟩
  · intro r hr hne
    simp [deleteLockRow, List.mem_filter, hr, hne]
  · intro r hr
    simpa [deleteLockRow, List.mem_filter] using hr

/-! ### C5: unresolvable dependency raises BadMigration at load time -/

/-- C5: when a migration's declared dependency list names an id missing
from the known-migration registry, the dependency-resolution step of
Migration.load raises BadMigration. -/
theorem loadResolve_unresolvable_raises (allMigrations depends : List String)
    (h : ∃ d ∈ depends, d ∉ allMigrations) :
    loadResolve allMigrations depends = .badMigration := by
  obtain ⟨d, hd, hnot⟩ := h
  have hmem : none ∈ depends.map (fun d => if d ∈ allMigrations then some d else none) := by
    rw [List.mem_map]
    exact ⟨d, hd, by simp [hnot]⟩
  simp [loadResolve, hmem]

/-- Witness for C5 at a concrete registry and dependency list. -/
theorem loadResolve_unresolvable_raises_witness :
    (∃ d ∈ ["0002-two"], d ∉ (["0001-one"] : List String)) ∧
      loadResolve ["0001-one"] ["0002-two"] = .badMigration :=
  ⟨⟨"0002-two", by decide, by decide⟩,
    loadResolve_unresolvable_raises _ _ ⟨"0002-two", by decide, by decide⟩⟩

/-! ### C4: single-item assignment raises TypeError, not MigrationConflict -/

/-- C4 (code bug): assigning a migration whose id duplicates a retained
element's id at an int index does not raise MigrationConflict; the inverted
isinstance branch iterates the removed Migration object and raises
TypeError unconditionally. -/
theorem setitemInt_raises_typeError :
    MList.setitemInt ⟨[⟨"m1", 0⟩, ⟨"m2", 0⟩], ["m1", "m2"], []⟩ 0 ⟨"m2", 1⟩
        = .error .typeError ∧
      MLError.typeError ≠ MLError.migrationConflict "m2" := by
  exact ⟨rfl, by decide⟩

/-! ### C10: post_apply is preserved by filter/replace, dropped by slicing -/

/-- Characterisation of check_conflicts succeeding. -/
theorem checkConflicts_eq_none_iff (seen : List String) (l : List Mig) :
    checkConflicts seen l = none ↔
      (∀ m ∈ l, m.mid ∉ seen) ∧ (l.map Mig.mid).Nodup := by
  induction l generalizing seen with
  | nil => simp [checkConflicts]
  | cons m rest ih =>
    by_cases hm : m.mid ∈ seen
    · rw [checkConflicts, if_pos hm]
      constructor
      · intro h
        exact Option.noConfusion h
      · rintro ⟨hall, -⟩
        exact absurd hm (hall m (List.mem_cons_self m rest))
    · rw [checkConflicts, if_neg hm, ih]
      simp only [List.map_cons, List.nodup_cons, List.mem_cons, List.mem_map]
      constructor
      · rintro ⟨hall, hnd⟩
        refine ⟨?_, ?_, hnd⟩
        · rintro m' (rfl | hm'')
          · exact hm
          · intro hc
            exact hall m' hm'' (Or.inr hc)
        · rintro ⟨m', hm', he⟩
          exact hall m' hm' (Or.inl he)
      · rintro ⟨hall, hnomem, hnd⟩
        refine ⟨?_, hnd⟩
        intro m' hm' hc
        rcases hc with he | hseen
        · exact hnomem ⟨m', hm', he⟩
        · exact hall m' (Or.inr hm') hseen

/-- C10: filter and replace hand the original post_apply list to the new
MigrationList, whereas taking a slice builds the new list without a
post_apply argument, so the hooks are silently dropped. -/
theorem mlist_post_apply_frame (ml : MList) (p : Mig → Bool) (a b : Nat)
    (h : (ml.items.map Mig.mid).Nodup) :
    (∃ l, ml.filterMl p = .ok l ∧ l.post_apply = ml.post_apply) ∧
    (∀ ms l, ml.replaceMl ms = .ok l → l.post_apply = ml.post_apply) ∧
    (∃ l, ml.getitemSlice a b = .ok l ∧ l.post_apply = []) := by
  refine ⟨?_, ?_, ?_⟩
  · have hnd : ((ml.items.filter p).map Mig.mid).Nodup :=
      h.sublist (List.Sublist.map Mig.mid (List.filter_sublist ml.items))
    have hcc : checkConflicts [] (ml.items.filter p) = none :=
      (checkConflicts_eq_none_iff [] _).mpr ⟨by simp, hnd⟩
    refine ⟨⟨ml.items.filter p, (ml.items.filter p).map Mig.mid, ml.post_apply⟩, ?_, rfl⟩
    unfold MList.filterMl mkMList
    rw [hcc]
  · intro ms l hl
    unfold MList.replaceMl mkMList at hl
    rcases hcc : checkConflicts [] ms with - | i
    · rw [hcc] at hl
      cases hl
      rfl
    · rw [hcc] at hl
      cases hl
  · have hsub : List.Sublist (((ml.items.drop a).take (b - a)).map Mig.mid)
        (ml.items.map Mig.mid) :=
      List.Sublist.map Mig.mid ((List.take_sublist _ _).trans (List.drop_sublist _ _))
    have hcc : checkConflicts [] ((ml.items.drop a).take (b - a)) = none :=
      (checkConflicts_eq_none_iff [] _).mpr ⟨by simp, h.sublist hsub⟩
    refine ⟨⟨(ml.items.drop a).take (b - a),
        ((ml.items.drop a).take (b - a)).map Mig.mid, []⟩, ?_, rfl⟩
    unfold MList.getitemSlice mkMList
    rw [hcc]

/-- Witness for C10 at a concrete migration list carrying one post-apply
hook. -/
theorem mlist_post_apply_frame_witness :
    ((([⟨"m1", 0⟩] : List Mig).map Mig.mid).Nodup) ∧
      ((∃ l, MList.filterMl ⟨[⟨"m1", 0⟩], ["m1"], [⟨"post-apply", 0⟩]⟩ (fun _ => true) = .ok l ∧
          l.post_apply = [⟨"post-apply", 0⟩]) ∧
        (∀ ms l, MList.replaceMl ⟨[⟨"m1", 0⟩], ["m1"], [⟨"post-apply", 0⟩]⟩ ms = .ok l →
          l.post_apply = [⟨"post-apply", 0⟩]) ∧
        (∃ l, MList.getitemSlice ⟨[⟨"m1", 0⟩], ["m1"], [⟨"post-apply", 0⟩]⟩ 0 1 = .ok l ∧
          l.post_apply = [])) :=
  ⟨by decide, mlist_post_apply_frame ⟨[⟨"m1", 0⟩], ["m1"], [⟨"post-apply", 0⟩]⟩ _ 0 1 (by decide)⟩

/-! ### C8: mark then unmark -/

/-- C8 counterexample: in a bookkeeping state where the migration's hash
is already present in the applied-migration table, mark_one violates the
primary key on migration_hash and raises, so mark followed by unmark does
not return the claimed restored state. -/
theorem markThenUnmark_already_applied_counterexample :
    ¬ ∃ s', markThenUnmark ⟨[⟨"h1", "m1", 0⟩], [], 1, 0⟩ ⟨"h1", "m1"⟩ = .ok s' ∧
        s'.migrationTable = [⟨"h1", "m1", 0⟩] ∧ s'.logTable.length = 0 + 2 := by
  rintro ⟨s', hok, -⟩
  have hne : markThenUnmark ⟨[⟨"h1", "m1", 0⟩], [], 1, 0⟩ ⟨"h1", "m1"⟩
      = .error .integrityError := rfl
  rw [hne] at hok
  exact Except.noConfusion hok

/-- C8 amended: for a migration whose hash is not already in the
applied-migration table, mark_one followed by unmark_one restores the
applied table exactly and appends exactly two audit-log rows, a mark
followed by an unmark. -/
theorem markThenUnmark_restores (s : BState) (m : MigRef)
    (h : ∀ r ∈ s.migrationTable, r.migration_hash ≠ m.hash) :
    ∃ s', markThenUnmark s m = .ok s' ∧
      s'.migrationTable = s.migrationTable ∧
      ∃ r1 r2, s'.logTable = s.logTable ++ [r1, r2] ∧
        r1.operation = .opMark ∧ r2.operation = .opUnmark := by
  have hmem : m.hash ∉ s.migrationTable.map AppliedRow.migration_hash := by
    rw [List.mem_map]
    rintro ⟨r, hr, he⟩
    exact h r hr he
  have h1 : insertApplied s m = .ok { s with
      migrationTable := s.migrationTable ++ [⟨m.hash, m.mid, s.clock⟩]
      clock := s.clock + 1 } := by
    unfold insertApplied
    rw [if_neg hmem]
  have h2 : s.migrationTable.filter (fun r => decide (r.migration_hash ≠ m.hash))
      = s.migrationTable := by
    rw [List.filter_eq_self]
    intro r hr
    simpa using h r hr
  refine ⟨unmarkOne (logMigration { s with
      migrationTable := s.migrationTable ++ [⟨m.hash, m.mid, s.clock⟩]
      clock := s.clock + 1 } m .opMark) m, ?_, ?_, ?_⟩
  · unfold markThenUnmark markOne
    rw [h1]
    rfl
  · simp only [unmarkOne, logMigration]
    rw [List.filter_append, h2]
    simp
  · refine ⟨⟨s.uuidCtr, m.hash, m.mid, .opMark⟩, ⟨s.uuidCtr + 1, m.hash, m.mid, .opUnmark⟩,
      ?_, rfl, rfl⟩
    simp [unmarkOne, logMigration]

/-- Witness for the amended C8 at a concrete state not containing the
migration's hash. -/
theorem markThenUnmark_restores_witness :
    (∀ r ∈ (⟨[⟨"h0", "m0", 0⟩], [], 1, 0⟩ : BState).migrationTable,
        r.migration_hash ≠ "h1") ∧
      (∃ s', markThenUnmark ⟨[⟨"h0", "m0", 0⟩], [], 1, 0⟩ ⟨"h1", "m1"⟩ = .ok s' ∧
        s'.migrationTable = (⟨[⟨"h0", "m0", 0⟩], [], 1, 0⟩ : BState).migrationTable ∧
        ∃ r1 r2, s'.logTable = (⟨[⟨"h0", "m0", 0⟩], [], 1, 0⟩ : BState).logTable ++ [r1, r2] ∧
          r1.operation = .opMark ∧ r2.operation = .opUnmark) :=
  ⟨by decide, markThenUnmark_restores ⟨[⟨"h0", "m0", 0⟩], [], 1, 0⟩ ⟨"h1", "m1"⟩ (by decide)⟩

/-! ### C2: failure mid-apply and the best-effort unwind -/

/-- C2 counterexample: three steps, step 2 fails to apply on a backend
without transactional DDL and step 1's rollback itself fails.  The unwind
stops at step 1: step 0's rollback action is never invoked, although the
claim requires the rollback of every executed step. -/
theorem processSteps_unwind_abort_counterexample :
    (processSteps [⟨0, .ok, .ok⟩, ⟨1, .ok, .dbError⟩, ⟨2, .dbError, .ok⟩]
        .dapply false true).2 = some 2 ∧
      Event.called .drollback 1 ∈
        (processSteps [⟨0, .ok, .ok⟩, ⟨1, .ok, .dbError⟩, ⟨2, .dbError, .ok⟩]
          .dapply false true).1 ∧
      Event.called .drollback 0 ∉
        (processSteps [⟨0, .ok, .ok⟩, ⟨1, .ok, .dbError⟩, ⟨2, .dbError, .ok⟩]
          .dapply false true).1 := by
  decide

/-- Rewriting the unwind loop as a takeWhile/dropWhile split at the first
failing rollback. -/
theorem unwindTrace_eq_split (dir : Direction) (l : List PStep) :
    unwindTrace dir l =
      (l.takeWhile (fun st => decide (st.act dir = .ok))).map (fun st => .called dir st.sid)
        ++ ((l.dropWhile (fun st => decide (st.act dir = .ok))).take 1).map
            (fun st => .called dir st.sid) := by
  induction l with
  | nil => rfl
  | cons st rest ih =>
    by_cases hok : st.act dir = .ok
    · simp [unwindTrace, hok, List.takeWhile_cons, List.dropWhile_cons, ih]
    · simp [unwindTrace, hok, List.takeWhile_cons, List.dropWhile_cons]

/-- Unfolding lemma: specUnwind is the unwind trace of the reversed
executed list. -/
theorem specUnwind_eq_unwindTrace (dir : Direction) (executed : List PStep) :
    specUnwind dir executed = unwindTrace dir executed.reverse := by
  rw [unwindTrace_eq_split]
  rfl

/-- Invariant form of the C2 amended claim over the remaining step list,
carrying the executed steps and trace accumulated so far. -/
theorem processStepsGo_apply_failure (hasTDdl useTrans : Bool)
    (hmode : hasTDdl = false ∨ useTrans = false) :
    ∀ (steps executed : List PStep) (trace : List Event) (k : Nat) (hk : k < steps.length),
      (∀ j (hj : j < k), (steps.get ⟨j, hj.trans hk⟩).applyOutcome = .ok) →
      (steps.get ⟨k, hk⟩).applyOutcome = .dbError →
      processStepsGo .dapply hasTDdl useTrans steps executed trace =
        (trace ++ (steps.take (k + 1)).map (fun st => .called .dapply st.sid)
            ++ unwindTrace .drollback ((executed ++ steps.take k).reverse),
          some ((steps.get ⟨k, hk⟩).sid)) := by
  intro steps
  induction steps with
  | nil =>
    intro executed trace k hk
    exact absurd hk (Nat.not_lt_zero k)
  | cons st rest ih =>
    intro executed trace k hk hpre hfail
    match k with
    | 0 =>
      have hact : st.act .dapply = .dbError := hfail
      have hne : ¬ st.act .dapply = .ok := by rw [hact]; intro hc; cases hc
      have hbranch : (hasTDdl = false ∨ useTrans = false) := hmode
      simp only [processStepsGo, if_neg hne, if_pos hbranch, List.take_succ_cons,
        List.take_zero, List.map_cons, List.map_nil, List.append_nil]
      rfl
    | k' + 1 =>
      have hok : st.act .dapply = .ok := hpre 0 (Nat.succ_pos k')
      have hk' : k' < rest.length := Nat.lt_of_succ_lt_succ hk
      have hpre' : ∀ j (hj : j < k'), (rest.get ⟨j, hj.trans hk'⟩).applyOutcome = .ok := by
        intro j hj
        exact hpre (j + 1) (Nat.succ_lt_succ hj)
      have hfail' : (rest.get ⟨k', hk'⟩).applyOutcome = .dbError := hfail
      simp only [processStepsGo, if_pos hok]
      rw [ih (executed ++ [st]) (trace ++ [Event.called Direction.dapply st.sid]) k' hk'
        hpre' hfail']
      simp only [List.take_succ_cons, List.map_cons, List.append_assoc, List.cons_append,
        List.nil_append]
      rfl

/-- C2 amended: when step k raises during apply on a backend without
transactional DDL (or with transactions disabled), every earlier step has
been applied, no later step is ever invoked, the executed steps are rolled
back in reverse order up to and including the first rollback that itself
raises (that error is swallowed and ends the unwind), and the original
step-k error is re-raised. -/
theorem processSteps_apply_failure (steps : List PStep) (hasTDdl useTrans : Bool) (k : Nat)
    (hk : k < steps.length)
    (hpre : ∀ j (hj : j < k), (steps.get ⟨j, hj.trans hk⟩).applyOutcome = .ok)
    (hfail : (steps.get ⟨k, hk⟩).applyOutcome = .dbError)
    (hmode : hasTDdl = false ∨ useTrans = false) :
    processSteps steps .dapply hasTDdl useTrans =
      ((steps.take (k + 1)).map (fun st => .called .dapply st.sid)
          ++ specUnwind .drollback (steps.take k),
        some ((steps.get ⟨k, hk⟩).sid)) := by
  unfold processSteps
  rw [if_neg (by intro hc; cases hc)]
  rw [processStepsGo_apply_failure hasTDdl useTrans hmode steps [] [] k hk hpre hfail]
  rw [specUnwind_eq_unwindTrace]
  simp

/-- Witness for the amended C2: a single step whose apply fails on a
backend without transactional DDL. -/
theorem processSteps_apply_failure_witness :
    (0 < ([⟨5, .dbError, .ok⟩] : List PStep).length) ∧
      (([⟨5, .dbError, .ok⟩] : List PStep).get ⟨0, Nat.zero_lt_one⟩).applyOutcome = .dbError ∧
      processSteps [⟨5, .dbError, .ok⟩] .dapply false true =
        ((([⟨5, .dbError, .ok⟩] : List PStep).take 1).map (fun st => .called .dapply st.sid)
            ++ specUnwind .drollback (([⟨5, .dbError, .ok⟩] : List PStep).take 0),
          some ((([⟨5, .dbError, .ok⟩] : List PStep).get ⟨0, Nat.zero_lt_one⟩).sid)) :=
  ⟨Nat.zero_lt_one, rfl,
    processSteps_apply_failure [⟨5, .dbError, .ok⟩] false true 0 Nat.zero_lt_one
      (fun j hj => absurd hj (Nat.not_lt_zero j)) rfl (Or.inl rfl)⟩

/-! ### C6: change_param_style -/

/-- Helper: the first element surviving dropWhile fails the predicate. -/
theorem dropWhile_head_false (p : Char → Bool) (l : List Char) :
    l.dropWhile p = [] ∨ ∃ c t, l.dropWhile p = c :: t ∧ p c = false := by
  induction l with
  | nil => exact Or.inl rfl
  | cons c t ih =>
    by_cases hc : p c
    · simpa [List.dropWhile_cons, hc] using ih
    · refine Or.inr ⟨c, t, ?_, by simpa using hc⟩
      simp [List.dropWhile_cons, hc]

/-- Helper: takeWhile recovers a word-character run closed by a non-word
boundary. -/
theorem takeWhile_word_append (k t : List Char) (hk : ∀ c ∈ k, isWordChar c)
    (ht : t = [] ∨ ∃ c t', t = c :: t' ∧ isWordChar c = false) :
    (k ++ t).takeWhile isWordChar = k := by
  induction k with
  | nil =>
    rcases ht with rfl | ⟨c, t', rfl, hc⟩
    · rfl
    · simp [List.takeWhile_cons, hc]
  | cons a k' ih =>
    have ha : isWordChar a := hk a (List.mem_cons_self a k')
    simp only [List.cons_append, List.takeWhile_cons, ha, if_true]
    rw [ih (fun c hc => hk c (List.mem_cons_of_mem a hc))]

/-- Helper: a nonempty all-word-character key matches at a position
exactly when it is the maximal word run there. -/
theorem keyMatches_iff (k : String) (rest : List Char)
    (_hne : k.data ≠ []) (hw : ∀ c ∈ k.data, isWordChar c) :
    keyMatches k rest = true ↔ rest.takeWhile isWordChar = k.data := by
  unfold keyMatches
  rw [Bool.and_eq_true, decide_eq_true_eq]
  constructor
  · rintro ⟨h1, h2⟩
    have hsplit : rest = k.data ++ rest.drop k.data.length := by
      conv_lhs => rw [← List.take_append_drop k.data.length rest]
      rw [h1]
    rw [hsplit, takeWhile_word_append _ _ hw ?_]
    rcases hd : rest.drop k.data.length with - | ⟨c, t⟩
    · exact Or.inl rfl
    · rw [hd] at h2
      refine Or.inr ⟨c, t, rfl, ?_⟩
      simpa using h2
  · intro h
    have hsplit : rest = k.data ++ rest.dropWhile isWordChar := by
      conv_lhs => rw [← List.takeWhile_append_dropWhile (p := isWordChar) (l := rest)]
      rw [h]
    constructor
    · conv_lhs => rw [hsplit]
      exact List.take_left _ _
    · have hdrop : rest.drop k.data.length = rest.dropWhile isWordChar := by
        conv_lhs => rw [hsplit]
        exact List.drop_left _ _
      rw [hdrop]
      rcases dropWhile_head_false isWordChar rest with he | ⟨c, t, he, hc⟩
      · rw [he]
      · rw [he]
        simp [hc]

/-- Helper: a successful alternation match returns the maximal word run,
independently of key order. -/
theorem findKeyMatch_some_eq (keys : List String) (rest : List Char) (k : String)
    (hkeys : ∀ k' ∈ keys, k'.data ≠ [] ∧ ∀ c ∈ k'.data, isWordChar c)
    (h : findKeyMatch keys rest = some k) :
    k.data = rest.takeWhile isWordChar ∧ k ∈ keys := by
  have hmem := List.mem_of_find?_eq_some h
  have hp := List.find?_some h
  obtain ⟨hne, hw⟩ := hkeys k hmem
  exact ⟨((keyMatches_iff k rest hne hw).mp hp).symm, hmem⟩

/-- Helper: a failed alternation match means the maximal word run is empty
or not a bound name. -/
theorem findKeyMatch_none_iff (keys : List String) (rest : List Char)
    (hkeys : ∀ k' ∈ keys, k'.data ≠ [] ∧ ∀ c ∈ k'.data, isWordChar c)
    (h : findKeyMatch keys rest = none) :
    ¬(rest.takeWhile isWordChar ≠ [] ∧ String.mk (rest.takeWhile isWordChar) ∈ keys) := by
  rintro ⟨hne, hmem⟩
  rw [findKeyMatch, List.find?_eq_none] at h
  apply h _ hmem
  obtain ⟨-, hw⟩ := hkeys _ hmem
  exact (keyMatches_iff _ rest hne hw).mpr rfl

/-- Helper: with word-character parameter names the source scan computes
exactly the spec scan, for every start state. -/
theorem subScan_eq_specScan (keys : List String) (style : ParamStyle)
    (hkeys : ∀ k ∈ keys, k.data ≠ [] ∧ ∀ c ∈ k.data, isWordChar c) :
    ∀ (n : Nat) (s : List Char), s.length ≤ n → ∀ (prev : Option Char) (cnt : Nat),
      subScan keys style prev cnt s = specScan keys style prev cnt s := by
  intro n
  induction n with
  | zero =>
    intro s hs prev cnt
    have hnil : s = [] := List.length_eq_zero.mp (Nat.le_zero.mp hs)
    subst hnil
    simp only [subScan, specScan]
  | succ n ih =>
    intro s hs prev cnt
    match s with
    | [] => simp only [subScan, specScan]
    | c :: rest =>
      have hrest : rest.length ≤ n := by
        simp only [List.length_cons] at hs
        omega
      by_cases hcond : (c = ':' ∧ prev ≠ some ':' ∧ prev ≠ some '\\')
      · cases hmatch : findKeyMatch keys rest with
        | some k =>
          obtain ⟨hkw, hkmem⟩ := findKeyMatch_some_eq keys rest k hkeys hmatch
          have hkeq : k = String.mk (rest.takeWhile isWordChar) := by
            cases k
            rw [← hkw]
          have hwne : rest.takeWhile isWordChar ≠ [] := by
            rw [← hkw]
            exact (hkeys k hkmem).1
          have hwmem : String.mk (rest.takeWhile isWordChar) ∈ keys := hkeq ▸ hkmem
          have hdlen : (rest.drop k.data.length).length ≤ n := by
            simp only [List.length_drop]
            omega
          simp only [subScan, specScan, if_pos hcond, hmatch,
            if_pos (And.intro hcond.1 (And.intro hcond.2.1
              (And.intro hcond.2.2 (And.intro hwne hwmem))))]
          rw [ih (rest.drop k.data.length) hdlen _ (cnt + 1), hkeq]
        | none =>
          have hnot := findKeyMatch_none_iff keys rest hkeys hmatch
          have hsneg : ¬(c = ':' ∧ prev ≠ some ':' ∧ prev ≠ some '\\' ∧
              rest.takeWhile isWordChar ≠ [] ∧
              String.mk (rest.takeWhile isWordChar) ∈ keys) := by
            rintro ⟨-, -, -, hne, hmem⟩
            exact hnot ⟨hne, hmem⟩
          simp only [subScan, specScan, if_pos hcond, hmatch, if_neg hsneg]
          rw [ih rest hrest (some c) cnt]
      · have hsneg : ¬(c = ':' ∧ prev ≠ some ':' ∧ prev ≠ some '\\' ∧
            rest.takeWhile isWordChar ≠ [] ∧
            String.mk (rest.takeWhile isWordChar) ∈ keys) := by
          rintro ⟨h1, h2, h3, -, -⟩
          exact hcond ⟨h1, h2, h3⟩
        simp only [subScan, specScan, if_neg hcond, if_neg hsneg]
        rw [ih rest hrest (some c) cnt]

/-- C6: for a positional target style and a nonempty bind mapping whose
names are nonempty word-character strings, change_param_style rewrites
exactly the colon-name tokens characterised by the spec scan (name bound,
not preceded by a backslash or colon, not followed by a word character)
and returns the bound values in first-to-last occurrence order of the
tokens, one value per occurrence of a repeated name. -/
theorem change_param_style_positional (α : Type) (target : ParamStyle) (sql : String)
    (bind : List (String × α))
    (hpos : target = .qmark ∨ target = .numeric ∨ target = .format)
    (hbind : bind ≠ [])
    (hkeys : ∀ k ∈ bind.map Prod.fst, k.data ≠ [] ∧ ∀ c ∈ k.data, isWordChar c) :
    change_param_style target sql bind =
      (String.mk (specScan (bind.map Prod.fst) target none 1 sql.data).1,
        BindResult.tup ((specScan (bind.map Prod.fst) target none 1 sql.data).2.map
          (lookupValue bind))) := by
  have hnamed : ¬ target = .named := by
    rcases hpos with rfl | rfl | rfl <;> intro hc <;> cases hc
  have hpyf : ¬ target = .pyformat := by
    rcases hpos with rfl | rfl | rfl <;> intro hc <;> cases hc
  have hempty : ¬ (bind.isEmpty = true) := by
    cases bind with
    | nil => exact absurd rfl hbind
    | cons a l => simp [List.isEmpty]
  simp only [change_param_style, if_neg hnamed, if_neg hempty, if_neg hpyf]
  rw [subScan_eq_specScan _ _ hkeys sql.data.length sql.data le_rfl none 1]

/-- Witness for C6 on a concrete query exercising a repeated name, a
double-colon cast and a backslash escape. -/
theorem change_param_style_positional_witness :
    ((ParamStyle.qmark = ParamStyle.qmark ∨ ParamStyle.qmark = ParamStyle.numeric ∨
        ParamStyle.qmark = ParamStyle.format) ∧
      (([("x", 10), ("y", 20)] : List (String × Nat)) ≠ []) ∧
      (∀ k ∈ ([("x", 10), ("y", 20)] : List (String × Nat)).map Prod.fst,
        k.data ≠ [] ∧ ∀ c ∈ k.data, isWordChar c)) ∧
    change_param_style .qmark "a = :x AND b = :y::int OR c = :x" [("x", 10), ("y", 20)] =
      (String.mk
          (specScan ((([("x", 10), ("y", 20)] : List (String × Nat))).map Prod.fst)
            .qmark none 1 ("a = :x AND b = :y::int OR c = :x" : String).data).1,
        BindResult.tup
          ((specScan ((([("x", 10), ("y", 20)] : List (String × Nat))).map Prod.fst)
              .qmark none 1 ("a = :x AND b = :y::int OR c = :x" : String).data).2.map
            (lookupValue [("x", 10), ("y", 20)]))) :=
  ⟨⟨Or.inl rfl, by decide, by decide⟩,
    change_param_style_positional Nat .qmark "a = :x AND b = :y::int OR c = :x"
      [("x", 10), ("y", 20)] (Or.inl rfl) (by decide) (by decide)⟩

/-! ### C1/C3/C9: topological_sort

The loop is related to the reference greedy emission kahnAux by a state
invariant: the pqueue is a sorted heap of (input index, item) pairs over
in-set items; output, pqueue and the blocked_on values partition the item
set; a blocked item is registered under exactly its unemitted in-set
dependencies; the stall counter is zero throughout (for distinct items the
stall branch is unreachable). -/

/-- Unemitted items, in discovery order. -/
def remaining (items : List Nat) (s : TopoState) : List Nat :=
  items.filter (fun x => decide (x ∉ s.output))

/-- Loop measure: lexicographic (unemitted count, queue length) packed
into one natural. -/
def topoMeasure (items : List Nat) (s : TopoState) : Nat :=
  (items.length - s.output.length) * (items.length + 1) + s.pqueue.length

/-- Invariant tying a loop state to the item list. -/
structure TopoInv (items : List Nat) (deps : Nat → List Nat) (s : TopoState) : Prop where
  hsort : s.pqueue.Pairwise (fun a b => a.1 < b.1)
  hpq : ∀ p ∈ s.pqueue, p.2 ∈ items ∧ p.1 = items.indexOf p.2
  houtI : ∀ x ∈ s.output, x ∈ items
  houtN : s.output.Nodup
  hcover : ∀ x ∈ items, x ∈ s.output ∨ x ∈ s.pqueue.map Prod.snd ∨ ∃ d ∈ items, x ∈ s.blockedOn d
  hOP : ∀ x ∈ s.output, x ∉ s.pqueue.map Prod.snd
  hOB : ∀ x ∈ s.output, ∀ d ∈ items, x ∉ s.blockedOn d
  hPB : ∀ x ∈ s.pqueue.map Prod.snd, ∀ d ∈ items, x ∉ s.blockedOn d
  hBdom : ∀ d x, x ∈ s.blockedOn d → d ∈ items ∧ d ∈ deps x ∧ d ∉ s.output ∧ x ∈ items
  hBfull : ∀ x d', (∃ d ∈ items, x ∈ s.blockedOn d) → d' ∈ deps x → d' ∈ items →
    d' ∉ s.output → x ∈ s.blockedOn d'
  hblk : ∀ x ∈ s.blocked, x ∈ items ∧ x ∉ s.output ∧
    ((∃ d ∈ items, x ∈ s.blockedOn d) ∨ ∀ d ∈ deps x, d ∈ items → d ∈ s.output)
  hblkN : s.blocked.Nodup
  hseen : s.seen = 0
  hBnd : ∀ d, (s.blockedOn d).Nodup

/-- Membership in heapInsert. -/
theorem heapInsert_mem (p q : Nat × Nat) (l : List (Nat × Nat)) :
    q ∈ heapInsert p l ↔ q = p ∨ q ∈ l := by
  induction l with
  | nil => simp [heapInsert]
  | cons r rs ih =>
    rw [heapInsert]
    by_cases hle : p.1 ≤ r.1
    · simp [if_pos hle, or_comm, or_assoc, or_left_comm]
    · simp only [if_neg hle, List.mem_cons, ih]
      tauto

/-- heapInsert preserves strict sortedness when the key is fresh. -/
theorem heapInsert_pairwise (p : Nat × Nat) (l : List (Nat × Nat))
    (hl : l.Pairwise (fun a b => a.1 < b.1)) (hfresh : ∀ q ∈ l, p.1 ≠ q.1) :
    (heapInsert p l).Pairwise (fun a b => a.1 < b.1) := by
  induction l with
  | nil => simp [heapInsert]
  | cons q qs ih =>
    rw [heapInsert]
    rcases List.pairwise_cons.mp hl with ⟨hq, hqs⟩
    by_cases hle : p.1 ≤ q.1
    · rw [if_pos hle]
      have hlt : p.1 < q.1 := lt_of_le_of_ne hle (hfresh q (List.mem_cons_self q qs))
      refine List.pairwise_cons.mpr ⟨?_, hl⟩
      intro r hr
      rcases List.mem_cons.mp hr with rfl | hr'
      · exact hlt
      · exact hlt.trans (hq r hr')
    · rw [if_neg hle]
      refine List.pairwise_cons.mpr ⟨?_, ih hqs (fun r hr => hfresh r (List.mem_cons_of_mem q hr))⟩
      intro r hr
      rcases (heapInsert_mem p r qs).mp hr with rfl | hr'
      · omega
      · exact hq r hr'

/-- Membership across the fold of heap insertions. -/
theorem foldl_heapInsert_mem (items : List Nat) (bs : List Nat) (pq : List (Nat × Nat))
    (q : Nat × Nat) :
    q ∈ bs.foldl (fun acc b => heapInsert (items.indexOf b, b) acc) pq ↔
      q ∈ pq ∨ ∃ b ∈ bs, q = (items.indexOf b, b) := by
  induction bs generalizing pq with
  | nil => simp
  | cons b bs ih =>
    rw [List.foldl_cons, ih, heapInsert_mem]
    simp only [List.mem_cons]
    constructor
    · rintro ((rfl | hpq) | ⟨b', hb', rfl⟩)
      · exact Or.inr ⟨b, Or.inl rfl, rfl⟩
      · exact Or.inl hpq
      · exact Or.inr ⟨b', Or.inr hb', rfl⟩
    · rintro (hpq | ⟨b', (rfl | hb'), rfl⟩)
      · exact Or.inl (Or.inr hpq)
      · exact Or.inl (Or.inl rfl)
      · exact Or.inr ⟨b', hb', rfl⟩

/-- Sortedness and labelling across the fold of heap insertions. -/
theorem foldl_heapInsert_pairwise (items : List Nat) (hnd : items.Nodup) :
    ∀ (bs : List Nat) (pq : List (Nat × Nat)),
      pq.Pairwise (fun a b => a.1 < b.1) →
      (∀ p ∈ pq, p.2 ∈ items ∧ p.1 = items.indexOf p.2) →
      (∀ b ∈ bs, b ∈ items) → bs.Nodup →
      (∀ b ∈ bs, b ∉ pq.map Prod.snd) →
      (bs.foldl (fun acc b => heapInsert (items.indexOf b, b) acc) pq).Pairwise
        (fun a b => a.1 < b.1) := by
  intro bs
  induction bs with
  | nil => intro pq h _ _ _ _; exact h
  | cons b bs ih =>
    intro pq hpw hlab hbI hbnd hfresh
    rw [List.foldl_cons]
    have hbmem : b ∈ items := hbI b (List.mem_cons_self b bs)
    have hkey : ∀ q ∈ pq, (items.indexOf b, b).1 ≠ q.1 := by
      intro q hq heq
      rcases hlab q hq with ⟨hq2, hq1⟩
      rw [hq1] at heq
      have : b = q.2 := (List.indexOf_inj hbmem hq2).mp heq
      exact hfresh b (List.mem_cons_self b bs) (this ▸ List.mem_map_of_mem Prod.snd hq)
    refine ih (heapInsert (items.indexOf b, b) pq) (heapInsert_pairwise _ _ hpw hkey) ?_ ?_ ?_ ?_
    · intro p hp
      rcases (heapInsert_mem _ p pq).mp hp with rfl | hp'
      · exact ⟨hbmem, rfl⟩
      · exact hlab p hp'
    · exact fun b' hb' => hbI b' (List.mem_cons_of_mem b hb')
    · exact (List.nodup_cons.mp hbnd).2
    · intro b' hb' hmem
      rw [List.mem_map] at hmem
      obtain ⟨p, hp, hp2⟩ := hmem
      rcases (heapInsert_mem _ p pq).mp hp with rfl | hp'
      · have hbb : b = b' := hp2
        exact (List.nodup_cons.mp hbnd).1 (hbb ▸ hb')
      · exact hfresh b' (List.mem_cons_of_mem b hb')
          (List.mem_map.mpr ⟨p, hp', hp2⟩)

/-- Lengths across heapInsert. -/
theorem heapInsert_length (p : Nat × Nat) (l : List (Nat × Nat)) :
    (heapInsert p l).length = l.length + 1 := by
  induction l with
  | nil => rfl
  | cons q qs ih =>
    rw [heapInsert]
    by_cases hle : p.1 ≤ q.1
    · simp [if_pos hle]
    · simp [if_neg hle, ih]

/-- Lengths across the fold of heap insertions. -/
theorem foldl_heapInsert_length (items : List Nat) (bs : List Nat) (pq : List (Nat × Nat)) :
    (bs.foldl (fun acc b => heapInsert (items.indexOf b, b) acc) pq).length
      = pq.length + bs.length := by
  induction bs generalizing pq with
  | nil => rfl
  | cons b bs ih =>
    rw [List.foldl_cons, ih, heapInsert_length, List.length_cons]
    omega

/-- The queue items of an invariant state are pairwise distinct. -/
theorem TopoInv.pitNodup {items : List Nat} {deps : Nat → List Nat} {s : TopoState}
    (inv : TopoInv items deps s) : (s.pqueue.map Prod.snd).Nodup := by
  rw [List.Nodup, List.pairwise_map]
  refine inv.hsort.imp_of_mem ?_
  intro a b ha hb hlt heq
  rcases inv.hpq a ha with ⟨-, ha1⟩
  rcases inv.hpq b hb with ⟨-, hb1⟩
  rw [ha1, hb1, heq] at hlt
  exact lt_irrefl _ hlt

/-- A nodup list is strictly ordered by indexOf. -/
theorem pairwise_indexOf_of_nodup (items : List Nat) (hnd : items.Nodup) :
    items.Pairwise (fun a b => items.indexOf a < items.indexOf b) := by
  rw [List.pairwise_iff_getElem]
  intro i j hi hj hij
  rw [List.indexOf_getElem hnd i hi, List.indexOf_getElem hnd j hj]
  exact hij

/-- find? on a list strictly ordered by f returns the stated element when
it satisfies the predicate and minimises f among satisfying members. -/
theorem find?_first_min (f : Nat → Nat) (p : Nat → Bool) :
    ∀ l : List Nat, l.Pairwise (fun a b => f a < f b) →
      ∀ n, n ∈ l → p n → (∀ y ∈ l, p y → f n ≤ f y) → l.find? p = some n := by
  intro l
  induction l with
  | nil => intro _ n hn; exact absurd hn (List.not_mem_nil n)
  | cons a l' ih =>
    intro hpw n hn hp hmin
    rcases List.pairwise_cons.mp hpw with ⟨ha, hl'⟩
    by_cases han : a = n
    · subst han
      simp [List.find?_cons, hp]
    · have hn' : n ∈ l' := by
        rcases List.mem_cons.mp hn with rfl | h
        · exact absurd rfl han
        · exact h
      have hpa : ¬ p a := by
        intro hpa
        have h1 : f n ≤ f a := hmin a (List.mem_cons_self a l') hpa
        have h2 : f a < f n := ha n hn'
        omega
      rw [List.find?_cons]
      have : p a = false := by
        cases hv : p a
        · rfl
        · exact absurd hv hpa
      rw [this]
      exact ih hl' n hn' hp (fun y hy hpy => hmin y (List.mem_cons_of_mem a hy) hpy)

/-- Elements of the queue are unemitted. -/
theorem TopoInv.pitNotOut {items : List Nat} {deps : Nat → List Nat} {s : TopoState}
    (inv : TopoInv items deps s) : ∀ x ∈ s.pqueue.map Prod.snd, x ∉ s.output := by
  intro x hx hout
  exact inv.hOP x hout hx

/-- Membership in the popped blocked_on map. -/
theorem popBlockedOn_mem (n d x : Nat) (bOn : Nat → List Nat) :
    x ∈ popBlockedOn n bOn d ↔ d ≠ n ∧ x ∈ bOn d := by
  unfold popBlockedOn
  by_cases h : d = n <;> simp [h]

/-- Membership in the augmented blocked_on map. -/
theorem addBlockedOn_mem (n : Nat) (blockers : List Nat) (bOn : Nat → List Nat) (d x : Nat) :
    x ∈ addBlockedOn n blockers bOn d ↔ x ∈ bOn d ∨ (d ∈ blockers ∧ x = n) := by
  unfold addBlockedOn
  by_cases hb : d ∈ blockers
  · by_cases hn : n ∈ bOn d
    · simp only [if_pos hb, if_pos hn]
      constructor
      · exact Or.inl
      · rintro (h | ⟨-, rfl⟩)
        · exact h
        · exact hn
    · simp only [if_pos hb, if_neg hn, List.mem_cons]
      constructor
      · rintro (rfl | h)
        · exact Or.inr ⟨hb, rfl⟩
        · exact Or.inl h
      · rintro (h | ⟨-, rfl⟩)
        · exact Or.inr h
        · exact Or.inl rfl
  · simp only [if_neg hb]
    constructor
    · exact Or.inl
    · rintro (h | ⟨hc, -⟩)
      · exact h
      · exact absurd hc hb

/-- Membership in the push-back list of the yield branch. -/
theorem emitToPush_mem (items : List Nat) (n : Nat) (s : TopoState) (b : Nat) :
    b ∈ emitToPush items n s ↔
      b ∈ s.blockedOn n ∧ ∀ d ∈ items, b ∉ popBlockedOn n s.blockedOn d := by
  unfold emitToPush
  rw [List.mem_filter, decide_eq_true_eq]

/-- The yield branch preserves the loop invariant. -/
theorem inv_emitUpdate (items : List Nat) (deps : Nat → List Nat) (hnd : items.Nodup)
    (s : TopoState) (inv : TopoInv items deps s) (ix n : Nat) (rest : List (Nat × Nat))
    (hpqe : s.pqueue = (ix, n) :: rest)
    (hready : ∀ d ∈ deps n, d ∈ items → d ∈ s.output) :
    TopoInv items deps (emitUpdate items n rest s) := by
  have hnPit : n ∈ s.pqueue.map Prod.snd := by
    rw [hpqe, List.map_cons]
    exact List.mem_cons_self _ _
  have hnI : n ∈ items := (inv.hpq (ix, n) (by rw [hpqe]; exact List.mem_cons_self _ _)).1
  have hnout : n ∉ s.output := inv.pitNotOut n hnPit
  have hnrest : n ∉ rest.map Prod.snd := by
    have h := inv.pitNodup
    rw [hpqe, List.map_cons] at h
    exact (List.nodup_cons.mp h).1
  have hrestPit : ∀ y ∈ rest.map Prod.snd, y ∈ s.pqueue.map Prod.snd := by
    intro y hy
    rw [hpqe, List.map_cons]
    exact List.mem_cons_of_mem _ hy
  have hrestsub : ∀ p ∈ rest, p ∈ s.pqueue := by
    intro p hp
    rw [hpqe]
    exact List.mem_cons_of_mem _ hp
  have hrestpw : rest.Pairwise (fun a b => a.1 < b.1) := by
    have h := inv.hsort
    rw [hpqe] at h
    exact (List.pairwise_cons.mp h).2
  refine ⟨?_, ?_, ?_, ?_, ?_, ?_, ?_, ?_, ?_, ?_, ?_, ?_, ?_, ?_⟩ <;> simp only [emitUpdate]
  · -- hsort
    exact foldl_heapInsert_pairwise items hnd (emitToPush items n s) rest hrestpw
      (fun p hp => inv.hpq p (hrestsub p hp))
      (fun b hb => (inv.hBdom n b ((emitToPush_mem items n s b).mp hb).1).2.2.2)
      ((inv.hBnd n).filter _)
      (fun b hb hbrest => inv.hPB b (hrestPit b hbrest) n hnI
        ((emitToPush_mem items n s b).mp hb).1)
  · -- hpq
    intro p hp
    rcases (foldl_heapInsert_mem items _ rest p).mp hp with hp' | ⟨b, hb, rfl⟩
    · exact inv.hpq p (hrestsub p hp')
    · exact ⟨(inv.hBdom n b ((emitToPush_mem items n s b).mp hb).1).2.2.2, rfl⟩
  · -- houtI
    intro x hx
    rcases List.mem_append.mp hx with hx' | hx'
    · exact inv.houtI x hx'
    · rw [List.mem_singleton] at hx'
      subst hx'
      exact hnI
  · -- houtN
    rw [List.nodup_append]
    refine ⟨inv.houtN, List.nodup_singleton n, ?_⟩
    intro x hx hxn
    rw [List.mem_singleton] at hxn
    subst hxn
    exact hnout hx
  · -- hcover
    intro x hxI
    rcases inv.hcover x hxI with hO | hP | ⟨d, hdI, hxB⟩
    · exact Or.inl (List.mem_append_left _ hO)
    · rw [hpqe, List.map_cons] at hP
      rcases List.mem_cons.mp hP with rfl | hP'
      · exact Or.inl (List.mem_append_right _ (by simp))
      · refine Or.inr (Or.inl ?_)
        rw [List.mem_map] at hP' ⊢
        obtain ⟨p, hp, hps⟩ := hP'
        exact ⟨p, (foldl_heapInsert_mem _ _ _ p).mpr (Or.inl hp), hps⟩
    · by_cases hdn : d = n
      · subst hdn
        by_cases hpush : ∀ d' ∈ items, x ∉ popBlockedOn d s.blockedOn d'
        · refine Or.inr (Or.inl ?_)
          rw [List.mem_map]
          exact ⟨(items.indexOf x, x), (foldl_heapInsert_mem _ _ _ _).mpr
            (Or.inr ⟨x, (emitToPush_mem items d s x).mpr ⟨hxB, hpush⟩, rfl⟩), rfl⟩
        · push_neg at hpush
          obtain ⟨d', hd'I, hd'B⟩ := hpush
          exact Or.inr (Or.inr ⟨d', hd'I, hd'B⟩)
      · exact Or.inr (Or.inr ⟨d, hdI, (popBlockedOn_mem n d x _).mpr ⟨hdn, hxB⟩⟩)
  · -- hOP
    intro x hx hmem
    rw [List.mem_map] at hmem
    obtain ⟨p, hp, hps⟩ := hmem
    rcases List.mem_append.mp hx with hxO | hxN
    · rcases (foldl_heapInsert_mem _ _ _ p).mp hp with hp' | ⟨b, hb, rfl⟩
      · exact inv.hOP x hxO (hps ▸ hrestPit p.2 (List.mem_map_of_mem Prod.snd hp'))
      · have hbB : b ∈ s.blockedOn n := ((emitToPush_mem items n s b).mp hb).1
        have hbx : b = x := hps
        exact inv.hOB x hxO n hnI (hbx ▸ hbB)
    · rw [List.mem_singleton] at hxN
      subst hxN
      rcases (foldl_heapInsert_mem _ _ _ p).mp hp with hp' | ⟨b, hb, rfl⟩
      · exact hnrest (hps ▸ List.mem_map_of_mem Prod.snd hp')
      · have hbB : b ∈ s.blockedOn x := ((emitToPush_mem items x s b).mp hb).1
        have hbx : b = x := hps
        exact inv.hPB x hnPit x hnI (hbx ▸ hbB)
  · -- hOB
    intro x hx d hdI
    rw [popBlockedOn_mem]
    rintro ⟨hdn, hxB⟩
    rcases List.mem_append.mp hx with hxO | hxN
    · exact inv.hOB x hxO d hdI hxB
    · rw [List.mem_singleton] at hxN
      subst hxN
      exact inv.hPB x hnPit d hdI hxB
  · -- hPB
    intro x hx d hdI
    rw [popBlockedOn_mem]
    rintro ⟨hdn, hxB⟩
    rw [List.mem_map] at hx
    obtain ⟨p, hp, hps⟩ := hx
    rcases (foldl_heapInsert_mem _ _ _ p).mp hp with hp' | ⟨b, hb, rfl⟩
    · exact inv.hPB x (hps ▸ hrestPit p.2 (List.mem_map_of_mem Prod.snd hp')) d hdI hxB
    · have hbx : b = x := hps
      subst hbx
      exact ((emitToPush_mem items n s b).mp hb).2 d hdI ((popBlockedOn_mem n d b _).mpr ⟨hdn, hxB⟩)
  · -- hBdom
    intro d x hxB
    rw [popBlockedOn_mem] at hxB
    obtain ⟨hdn, hxB'⟩ := hxB
    obtain ⟨hdI, hdd, hdO, hxI⟩ := inv.hBdom d x hxB'
    refine ⟨hdI, hdd, ?_, hxI⟩
    intro hdO'
    rcases List.mem_append.mp hdO' with h | h
    · exact hdO h
    · exact hdn (List.mem_singleton.mp h)
  · -- hBfull
    intro x d' hbstar hd'd hd'I hd'O
    rw [popBlockedOn_mem]
    obtain ⟨d, hdI, hxB⟩ := hbstar
    rw [popBlockedOn_mem] at hxB
    have hxold : ∃ d ∈ items, x ∈ s.blockedOn d := ⟨d, hdI, hxB.2⟩
    have hd'n : d' ≠ n := by
      intro h
      subst h
      exact hd'O (List.mem_append_right _ (by simp))
    have hd'Os : d' ∉ s.output := fun h => hd'O (List.mem_append_left _ h)
    exact ⟨hd'n, inv.hBfull x d' hxold hd'd hd'I hd'Os⟩
  · -- hblk
    intro x hx
    rw [inv.hblkN.mem_erase_iff] at hx
    obtain ⟨hxn, hxblk⟩ := hx
    obtain ⟨hxI, hxO, hrb⟩ := inv.hblk x hxblk
    refine ⟨hxI, ?_, ?_⟩
    · intro h
      rcases List.mem_append.mp h with h | h
      · exact hxO h
      · exact hxn (List.mem_singleton.mp h)
    · rcases hrb with ⟨d, hdI, hxB⟩ | hall
      · by_cases hdn : d = n
        · subst hdn
          by_cases hpush : ∀ d' ∈ items, x ∉ popBlockedOn d s.blockedOn d'
          · refine Or.inr ?_
            intro d' hd' hd'I
            by_cases hd'O : d' ∈ s.output
            · exact List.mem_append_left _ hd'O
            · by_cases hd'n : d' = d
              · subst hd'n
                exact List.mem_append_right _ (by simp)
              · exfalso
                have hxB' : x ∈ s.blockedOn d' := inv.hBfull x d' ⟨d, hdI, hxB⟩ hd' hd'I hd'O
                exact hpush d' hd'I ((popBlockedOn_mem d d' x _).mpr ⟨hd'n, hxB'⟩)
          · push_neg at hpush
            obtain ⟨d', hd'I, hd'B⟩ := hpush
            exact Or.inl ⟨d', hd'I, hd'B⟩
        · exact Or.inl ⟨d, hdI, (popBlockedOn_mem n d x _).mpr ⟨hdn, hxB⟩⟩
      · exact Or.inr (fun d hd hdI => List.mem_append_left _ (hall d hd hdI))
  · -- hblkN
    exact inv.hblkN.erase n
  · -- hBnd (the hseen goal was discharged by the simp above)
    intro d
    unfold popBlockedOn
    by_cases h : d = n
    · simp [h]
    · simpa [h] using inv.hBnd d

/-- The blocking branch preserves the loop invariant. -/
theorem inv_blockUpdate (items : List Nat) (deps : Nat → List Nat)
    (s : TopoState) (inv : TopoInv items deps s) (ix n : Nat) (rest : List (Nat × Nat))
    (hpqe : s.pqueue = (ix, n) :: rest) (blockers : List Nat)
    (hbl : blockers = (deps n).filter (fun d => decide (d ∉ s.output ∧ d ∈ items)))
    (hbne : blockers ≠ []) (hnblk : n ∉ s.blocked) :
    TopoInv items deps (blockUpdate n rest blockers s) := by
  have hnPit : n ∈ s.pqueue.map Prod.snd := by
    rw [hpqe, List.map_cons]
    exact List.mem_cons_self _ _
  have hnI : n ∈ items := (inv.hpq (ix, n) (by rw [hpqe]; exact List.mem_cons_self _ _)).1
  have hnout : n ∉ s.output := inv.pitNotOut n hnPit
  have hnrest : n ∉ rest.map Prod.snd := by
    have h := inv.pitNodup
    rw [hpqe, List.map_cons] at h
    exact (List.nodup_cons.mp h).1
  have hrestPit : ∀ y ∈ rest.map Prod.snd, y ∈ s.pqueue.map Prod.snd := by
    intro y hy
    rw [hpqe, List.map_cons]
    exact List.mem_cons_of_mem _ hy
  have hrestsub : ∀ p ∈ rest, p ∈ s.pqueue := by
    intro p hp
    rw [hpqe]
    exact List.mem_cons_of_mem _ hp
  have hrestpw : rest.Pairwise (fun a b => a.1 < b.1) := by
    have h := inv.hsort
    rw [hpqe] at h
    exact (List.pairwise_cons.mp h).2
  have hblmem : ∀ d, d ∈ blockers ↔ d ∈ deps n ∧ d ∉ s.output ∧ d ∈ items := by
    intro d
    rw [hbl, List.mem_filter, decide_eq_true_eq]
  obtain ⟨d0, hd0⟩ := List.exists_mem_of_ne_nil blockers hbne
  have hd0I : d0 ∈ items := ((hblmem d0).mp hd0).2.2
  have hnB : ∃ d ∈ items, n ∈ addBlockedOn n blockers s.blockedOn d :=
    ⟨d0, hd0I, (addBlockedOn_mem n blockers s.blockedOn d0 n).mpr (Or.inr ⟨hd0, rfl⟩)⟩
  refine ⟨?_, ?_, ?_, ?_, ?_, ?_, ?_, ?_, ?_, ?_, ?_, ?_, ?_, ?_⟩ <;> simp only [blockUpdate]
  · exact hrestpw
  · exact fun p hp => inv.hpq p (hrestsub p hp)
  · exact inv.houtI
  · exact inv.houtN
  · -- hcover
    intro x hxI
    rcases inv.hcover x hxI with hO | hP | ⟨d, hdI, hxB⟩
    · exact Or.inl hO
    · rw [hpqe, List.map_cons] at hP
      rcases List.mem_cons.mp hP with rfl | hP'
      · exact Or.inr (Or.inr hnB)
      · exact Or.inr (Or.inl hP')
    · exact Or.inr (Or.inr ⟨d, hdI,
        (addBlockedOn_mem n blockers s.blockedOn d x).mpr (Or.inl hxB)⟩)
  · -- hOP
    intro x hx hmem
    exact inv.hOP x hx (hrestPit x hmem)
  · -- hOB
    intro x hx d hdI hmem
    rcases (addBlockedOn_mem n blockers s.blockedOn d x).mp hmem with h | ⟨-, rfl⟩
    · exact inv.hOB x hx d hdI h
    · exact hnout hx
  · -- hPB
    intro x hx d hdI hmem
    rcases (addBlockedOn_mem n blockers s.blockedOn d x).mp hmem with h | ⟨-, rfl⟩
    · exact inv.hPB x (hrestPit x hx) d hdI h
    · exact hnrest hx
  · -- hBdom
    intro d x hmem
    rcases (addBlockedOn_mem n blockers s.blockedOn d x).mp hmem with h | ⟨hdb, rfl⟩
    · exact inv.hBdom d x h
    · rcases (hblmem d).mp hdb with ⟨hdd, hdO, hdI⟩
      exact ⟨hdI, hdd, hdO, hnI⟩
  · -- hBfull
    intro x d' hbstar hd'd hd'I hd'O
    by_cases hxn : x = n
    · subst hxn
      exact (addBlockedOn_mem x blockers s.blockedOn d' x).mpr
        (Or.inr ⟨(hblmem d').mpr ⟨hd'd, hd'O, hd'I⟩, rfl⟩)
    · obtain ⟨d, hdI, hxB⟩ := hbstar
      rcases (addBlockedOn_mem n blockers s.blockedOn d x).mp hxB with h | ⟨-, h⟩
      · exact (addBlockedOn_mem n blockers s.blockedOn d' x).mpr
          (Or.inl (inv.hBfull x d' ⟨d, hdI, h⟩ hd'd hd'I hd'O))
      · exact absurd h hxn
  · -- hblk
    intro x hx
    rcases List.mem_cons.mp hx with rfl | hx'
    · exact ⟨hnI, hnout, Or.inl hnB⟩
    · obtain ⟨hxI, hxO, hrb⟩ := inv.hblk x hx'
      refine ⟨hxI, hxO, ?_⟩
      rcases hrb with ⟨d, hdI, hxB⟩ | hall
      · exact Or.inl ⟨d, hdI,
          (addBlockedOn_mem n blockers s.blockedOn d x).mpr (Or.inl hxB)⟩
      · exact Or.inr hall
  · -- hblkN
    exact List.nodup_cons.mpr ⟨hnblk, inv.hblkN⟩
  · -- hBnd
    intro d
    unfold addBlockedOn
    by_cases hb : d ∈ blockers
    · by_cases hn : n ∈ s.blockedOn d
      · simpa [hb, hn] using inv.hBnd d
      · simp only [if_pos hb, if_neg hn]
        exact List.nodup_cons.mpr ⟨hn, inv.hBnd d⟩
    · simpa [hb] using inv.hBnd d

/-- kahnAux stops when no remaining element is ready. -/
theorem kahnAux_step_none (items : List Nat) (deps : Nat → List Nat) (r emitted : List Nat)
    (h : r.find? (readyB items deps emitted) = none) :
    kahnAux items deps r emitted = (emitted, r) := by
  rw [kahnAux]
  split
  · rfl
  · next x heq =>
    rw [h] at heq
    cases heq

/-- kahnAux emits the first ready element. -/
theorem kahnAux_step_some (items : List Nat) (deps : Nat → List Nat) (r emitted : List Nat)
    (x : Nat) (h : r.find? (readyB items deps emitted) = some x) :
    kahnAux items deps r emitted = kahnAux items deps (r.erase x) (emitted ++ [x]) := by
  rw [kahnAux]
  split
  · next heq =>
    rw [h] at heq
    cases heq
  · next y heq =>
    rw [h] at heq
    cases heq
    rfl

/-- The yield branch removes exactly the yielded item from the remainder. -/
theorem remaining_emit (items : List Nat) (hnd : items.Nodup) (n : Nat)
    (rest : List (Nat × Nat)) (s : TopoState) :
    remaining items (emitUpdate items n rest s) = (remaining items s).erase n := by
  unfold remaining emitUpdate
  rw [(hnd.filter _).erase_eq_filter, List.filter_filter]
  apply List.filter_congr
  intro x hx
  by_cases h1 : x = n <;> by_cases h2 : x ∈ s.output <;> simp [h1, h2]

/-- The blocking branch leaves the remainder unchanged. -/
theorem remaining_block (items : List Nat) (n : Nat) (rest : List (Nat × Nat))
    (blockers : List Nat) (s : TopoState) :
    remaining items (blockUpdate n rest blockers s) = remaining items s := rfl

/-- When the head of the queue is ready it is the first ready element of
the remainder. -/
theorem find_ready_emit (items : List Nat) (deps : Nat → List Nat) (hnd : items.Nodup)
    (s : TopoState) (inv : TopoInv items deps s) (ix n : Nat) (rest : List (Nat × Nat))
    (hpqe : s.pqueue = (ix, n) :: rest)
    (hready : ∀ d ∈ deps n, d ∈ items → d ∈ s.output) :
    (remaining items s).find? (readyB items deps s.output) = some n := by
  have hnPit : n ∈ s.pqueue.map Prod.snd := by
    rw [hpqe, List.map_cons]
    exact List.mem_cons_self _ _
  have hnI : n ∈ items := (inv.hpq (ix, n) (by rw [hpqe]; exact List.mem_cons_self _ _)).1
  have hnout : n ∉ s.output := inv.pitNotOut n hnPit
  apply find?_first_min (fun x => items.indexOf x)
  · exact List.Pairwise.sublist (List.filter_sublist _) (pairwise_indexOf_of_nodup items hnd)
  · rw [remaining, List.mem_filter]
    exact ⟨hnI, by simp [hnout]⟩
  · rw [readyB, List.all_eq_true]
    intro d hd
    rw [decide_eq_true_eq]
    by_cases hdI : d ∈ items
    · exact Or.inr (hready d hd hdI)
    · exact Or.inl hdI
  · intro y hy hready_y
    rw [remaining, List.mem_filter, decide_eq_true_eq] at hy
    obtain ⟨hyI, hyout⟩ := hy
    have hynb : ¬ ∃ d ∈ items, y ∈ s.blockedOn d := by
      rintro ⟨d, hdI, hyB⟩
      obtain ⟨-, hdd, hdO, -⟩ := inv.hBdom d y hyB
      rw [readyB, List.all_eq_true] at hready_y
      have h2 := hready_y d hdd
      rw [decide_eq_true_eq] at h2
      rcases h2 with h2 | h2
      · exact h2 hdI
      · exact hdO h2
    rcases inv.hcover y hyI with h | h | h
    · exact absurd h hyout
    · rw [hpqe, List.map_cons] at h
      rcases List.mem_cons.mp h with rfl | h'
      · exact le_refl _
      · rw [List.mem_map] at h'
        obtain ⟨p, hp, hps⟩ := h'
        have hsort := inv.hsort
        rw [hpqe] at hsort
        have hlt : ix < p.1 := (List.pairwise_cons.mp hsort).1 p hp
        have h1 : ix = items.indexOf n :=
          (inv.hpq (ix, n) (by rw [hpqe]; exact List.mem_cons_self _ _)).2
        have h2 : p.1 = items.indexOf p.2 :=
          (inv.hpq p (by rw [hpqe]; exact List.mem_cons_of_mem _ hp)).2
        rw [h1, h2, hps] at hlt
        exact le_of_lt hlt
    · exact absurd h hynb

/-- Arithmetic of the measure decrease in the yield branch. -/
theorem emit_measure_arith (A L r tp : Nat) (hA : 1 ≤ A) (htp : tp ≤ L) :
    (A - 1) * (L + 1) + (r + tp) < A * (L + 1) + (r + 1) := by
  have h1 : (A - 1) + 1 = A := by omega
  have h2 : A * (L + 1) = (A - 1) * (L + 1) + (L + 1) := by
    conv_lhs => rw [← h1]
    rw [Nat.succ_mul]
  omega

/-- Simulation: from any invariant state with enough fuel, the loop
computes what the reference greedy emission computes. -/
theorem topoLoop_sim (items : List Nat) (deps : Nat → List Nat) (hnd : items.Nodup) :
    ∀ (fuel : Nat) (s : TopoState), TopoInv items deps s → topoMeasure items s < fuel →
      topoLoop items deps fuel s =
        (if (kahnAux items deps (remaining items s) s.output).2 = []
         then TopoResult.ok (kahnAux items deps (remaining items s) s.output).1
         else TopoResult.cycleError (kahnAux items deps (remaining items s) s.output).2) := by
  intro fuel
  induction fuel with
  | zero =>
    intro s _ hm
    exact absurd hm (by omega)
  | succ fuel ih =>
    intro s inv hm
    rcases hpqe : s.pqueue with - | ⟨⟨ix, n⟩, rest⟩
    · -- queue exhausted
      simp only [topoLoop, hpqe]
      by_cases hany : items.any (fun d => decide (s.blockedOn d ≠ [])) = true
      · rw [if_pos hany]
        have hex : ∃ d ∈ items, s.blockedOn d ≠ [] := by
          simpa [List.any_eq_true, decide_eq_true_eq] using hany
        obtain ⟨d1, hd1I, hd1ne⟩ := hex
        obtain ⟨x1, hx1⟩ := List.exists_mem_of_ne_nil _ hd1ne
        have hx1I : x1 ∈ items := (inv.hBdom d1 x1 hx1).2.2.2
        have hx1out : x1 ∉ s.output := fun h => inv.hOB x1 h d1 hd1I hx1
        have hx1rem : x1 ∈ remaining items s := by
          rw [remaining, List.mem_filter]
          exact ⟨hx1I, by simp [hx1out]⟩
        have hrne : remaining items s ≠ [] := by
          intro h
          rw [h] at hx1rem
          exact List.not_mem_nil _ hx1rem
        have hnoready : ∀ y ∈ remaining items s, ¬ readyB items deps s.output y = true := by
          intro y hy hready_y
          rw [remaining, List.mem_filter, decide_eq_true_eq] at hy
          obtain ⟨hyI, hyout⟩ := hy
          rcases inv.hcover y hyI with h | h | ⟨d, hdI, hyB⟩
          · exact hyout h
          · rw [hpqe] at h
            exact absurd h (List.not_mem_nil y)
          · obtain ⟨-, hdd, hdO, -⟩ := inv.hBdom d y hyB
            rw [readyB, List.all_eq_true] at hready_y
            have h2 := hready_y d hdd
            rw [decide_eq_true_eq] at h2
            rcases h2 with h2 | h2
            · exact h2 hdI
            · exact hdO h2
        rw [kahnAux_step_none items deps _ _ (List.find?_eq_none.mpr hnoready)]
        rw [if_neg hrne]
        simp only [raiseCycleError]
        have hkeys : (items.filter (fun d => decide (s.blockedOn d ≠ []))).find?
            (fun d => decide (d ∉ items)) = none := by
          rw [List.find?_eq_none]
          intro d hd
          rw [List.mem_filter] at hd
          simp [hd.1]
        rw [hkeys]
        have hunres : items.filter (fun x =>
            decide (x ∈ s.pqueue.map Prod.snd ∨ ∃ d ∈ items, x ∈ s.blockedOn d))
              = remaining items s := by
          rw [remaining]
          apply List.filter_congr
          intro x hxI
          rw [hpqe]
          by_cases hb : ∃ d ∈ items, x ∈ s.blockedOn d
          · obtain ⟨d, hdI, hxB⟩ := hb
            have hxout : x ∉ s.output := fun h => inv.hOB x h d hdI hxB
            simp only [List.map_nil, List.not_mem_nil, false_or, decide_eq_decide]
            constructor
            · intro _
              exact hxout
            · intro _
              exact ⟨d, hdI, hxB⟩
          · have hxout : x ∈ s.output := by
              rcases inv.hcover x hxI with h | h | h
              · exact h
              · rw [hpqe] at h
                exact absurd h (List.not_mem_nil x)
              · exact absurd h hb
            simp only [List.map_nil, List.not_mem_nil, false_or, decide_eq_decide]
            constructor
            · intro h
              exact absurd h hb
            · intro h
              exact absurd hxout h
        rw [hunres, if_pos hrne]
      · rw [if_neg hany]
        have hre : remaining items s = [] := by
          rw [remaining, List.filter_eq_nil]
          intro x hxI hdec
          rw [decide_eq_true_eq] at hdec
          rcases inv.hcover x hxI with h | h | ⟨d, hdI, hxB⟩
          · exact hdec h
          · rw [hpqe] at h
            exact absurd h (List.not_mem_nil x)
          · apply hany
            rw [List.any_eq_true]
            refine ⟨d, hdI, ?_⟩
            rw [decide_eq_true_eq]
            intro hnil
            rw [hnil] at hxB
            exact List.not_mem_nil x hxB
        rw [hre, kahnAux_step_none items deps _ _ (by rw [List.find?_nil])]
        simp
    · -- queue head (ix, n)
      simp only [topoLoop, hpqe]
      have hseen : ¬ (s.seen = (rest.length + 1) + s.blocked.length) := by
        rw [inv.hseen]
        omega
      rw [if_neg hseen]
      by_cases hready : ((deps n).filter (fun d => decide (d ∉ s.output ∧ d ∈ items))) = []
      · rw [if_pos hready]
        have hreadyP : ∀ d ∈ deps n, d ∈ items → d ∈ s.output := by
          intro d hd hdI
          by_contra hdO
          have hmem : d ∈ (deps n).filter (fun d => decide (d ∉ s.output ∧ d ∈ items)) := by
            rw [List.mem_filter, decide_eq_true_eq]
            exact ⟨hd, hdO, hdI⟩
          rw [hready] at hmem
          exact List.not_mem_nil d hmem
        have hfind := find_ready_emit items deps hnd s inv ix n rest hpqe hreadyP
        have inv' := inv_emitUpdate items deps hnd s inv ix n rest hpqe hreadyP
        have hlen_out : s.output.length < items.length := by
          have hnd' : ((emitUpdate items n rest s).output).Nodup := inv'.houtN
          have hsub : ((emitUpdate items n rest s).output) ⊆ items :=
            fun x hx => inv'.houtI x hx
          have hle := (List.subperm_of_subset hnd' hsub).length_le
          simp only [emitUpdate, List.length_append, List.length_singleton] at hle
          omega
        have htp_len : (emitToPush items n s).length ≤ items.length := by
          have hnd_tp : (emitToPush items n s).Nodup := (inv.hBnd n).filter _
          have hsub_tp : emitToPush items n s ⊆ items := fun b hb =>
            (inv.hBdom n b ((emitToPush_mem items n s b).mp hb).1).2.2.2
          exact (List.subperm_of_subset hnd_tp hsub_tp).length_le
        have hms' : topoMeasure items (emitUpdate items n rest s) < topoMeasure items s := by
          have e_out : (emitUpdate items n rest s).output.length = s.output.length + 1 := by
            simp [emitUpdate]
          have e_pq : (emitUpdate items n rest s).pqueue.length
              = rest.length + (emitToPush items n s).length := by
            simp only [emitUpdate]
            exact foldl_heapInsert_length items _ rest
          rw [topoMeasure, topoMeasure, e_out, e_pq, hpqe]
          simp only [List.length_cons]
          have e2 : items.length - (s.output.length + 1)
              = (items.length - s.output.length) - 1 := by omega
          rw [e2]
          exact emit_measure_arith (items.length - s.output.length) items.length rest.length
            (emitToPush items n s).length (by omega) htp_len
        rw [ih _ inv' (by omega)]
        rw [kahnAux_step_some items deps _ _ n hfind]
        rw [remaining_emit items hnd n rest s]
        rfl
      · rw [if_neg hready]
        have hnblk : n ∉ s.blocked := by
          intro hblk
          obtain ⟨-, -, hrb⟩ := inv.hblk n hblk
          rcases hrb with ⟨d, hdI, hnB⟩ | hall
          · exact inv.hPB n (by rw [hpqe, List.map_cons]; exact List.mem_cons_self _ _) d hdI hnB
          · obtain ⟨d, hd⟩ := List.exists_mem_of_ne_nil _ hready
            rw [List.mem_filter, decide_eq_true_eq] at hd
            exact hd.2.1 (hall d hd.1 hd.2.2)
        rw [if_neg hnblk]
        have inv'' := inv_blockUpdate items deps s inv ix n rest hpqe _ rfl hready hnblk
        have hms'' : topoMeasure items (blockUpdate n rest
            ((deps n).filter (fun d => decide (d ∉ s.output ∧ d ∈ items))) s)
              < topoMeasure items s := by
          rw [topoMeasure, topoMeasure, hpqe]
          simp only [blockUpdate, List.length_cons]
          omega
        rw [ih _ inv'' (by omega)]
        rfl

/-- The initial loop state satisfies the invariant. -/
theorem inv_init (items : List Nat) (deps : Nat → List Nat) (hnd : items.Nodup) :
    TopoInv items deps ⟨items.enum, [], [], fun _ => [], 0⟩ := by
  refine ⟨?_, ?_, ?_, ?_, ?_, ?_, ?_, ?_, ?_, ?_, ?_, ?_, ?_, ?_⟩
  · -- enum is strictly sorted on the index component
    rw [List.pairwise_iff_getElem]
    intro i j hi hj hij
    rw [List.getElem_enum, List.getElem_enum]
    exact hij
  · -- labels
    intro p hp
    rw [List.mem_enum_iff_getElem?] at hp
    have hlt : p.1 < items.length := by
      by_contra h
      rw [List.getElem?_eq_none (by omega)] at hp
      cases hp
    rw [List.getElem?_eq_getElem hlt] at hp
    have hp2 : items[p.1] = p.2 := by
      injection hp
    constructor
    · rw [← hp2]
      exact List.getElem_mem hlt
    · rw [← hp2]
      exact (List.indexOf_getElem hnd p.1 hlt).symm
  · intro x hx
    exact absurd hx (List.not_mem_nil x)
  · exact List.nodup_nil
  · intro x hxI
    refine Or.inr (Or.inl ?_)
    rw [List.enum_map_snd]
    exact hxI
  · intro x hx
    exact absurd hx (List.not_mem_nil x)
  · intro x hx
    exact absurd hx (List.not_mem_nil x)
  · intro x _ d _ h
    exact List.not_mem_nil x h
  · intro d x h
    exact absurd h (List.not_mem_nil x)
  · rintro x d' ⟨d, -, h⟩
    exact absurd h (List.not_mem_nil x)
  · intro x hx
    exact absurd hx (List.not_mem_nil x)
  · exact List.nodup_nil
  · rfl
  · intro _
    exact List.nodup_nil

/-- topological_sort computes the reference greedy emission: its output
on success, and the stuck remainder as the cycle error node list. -/
theorem topological_sort_eq_kahn (items : List Nat) (deps : Nat → List Nat)
    (hnd : items.Nodup) :
    topological_sort items deps =
      (if (kahnAux items deps items []).2 = []
       then TopoResult.ok (kahnAux items deps items []).1
       else TopoResult.cycleError (kahnAux items deps items []).2) := by
  rw [topological_sort]
  have hmeas : topoMeasure items ⟨items.enum, [], [], fun _ => [], 0⟩
      < (items.length + 1) * (items.length + 1) := by
    rw [topoMeasure]
    simp only [List.length_nil, Nat.sub_zero, List.enum_length]
    have h1 : (items.length + 1) * (items.length + 1)
        = items.length * (items.length + 1) + (items.length + 1) := Nat.succ_mul _ _
    omega
  rw [topoLoop_sim items deps hnd _ _ (inv_init items deps hnd) hmeas]
  have hrem : remaining items ⟨items.enum, [], [], fun _ => [], 0⟩ = items := by
    rw [remaining]
    apply List.filter_eq_self.mpr
    intro x _
    simp
  rw [hrem]

/-- find? on a strictly f-ordered list returns an f-minimiser among the
satisfying elements. -/
theorem find?_min_of_first (f : Nat → Nat) (p : Nat → Bool) :
    ∀ l : List Nat, l.Pairwise (fun a b => f a < f b) →
      ∀ x, l.find? p = some x → ∀ y ∈ l, p y → f x ≤ f y := by
  intro l
  induction l with
  | nil =>
    intro _ x hx
    rw [List.find?_nil] at hx
    cases hx
  | cons a l' ih =>
    intro hpw x hx y hy hpy
    rcases List.pairwise_cons.mp hpw with ⟨ha, hl'⟩
    rw [List.find?_cons] at hx
    cases hpa : p a with
    | true =>
      rw [hpa] at hx
      injection hx with hx
      subst hx
      rcases List.mem_cons.mp hy with rfl | hy'
      · exact le_refl _
      · exact le_of_lt (ha y hy')
    | false =>
      rw [hpa] at hx
      rcases List.mem_cons.mp hy with rfl | hy'
      · rw [hpy] at hpa
        cases hpa
      · exact ih hl' x hx y hy' hpy

/-- The erase of a ready element corresponds to extending the emitted
prefix. -/
theorem erase_filter_not_mem (items : List Nat) (hnd : items.Nodup)
    (emitted : List Nat) (x : Nat) :
    (items.filter (fun y => decide (y ∉ emitted))).erase x
      = items.filter (fun y => decide (y ∉ emitted ++ [x])) := by
  rw [(hnd.filter _).erase_eq_filter, List.filter_filter]
  apply List.filter_congr
  intro y _
  by_cases h1 : y = x <;> by_cases h2 : y ∈ emitted <;> simp [h1, h2]

/-- Full characterisation of the reference greedy emission: it extends
the emitted prefix by a sequence t of fresh in-set items, each ready at
its position and of minimal input index among the ready candidates; the
remainder holds exactly the still-unemitted items, none of them ready. -/
theorem kahnAux_spec (items : List Nat) (deps : Nat → List Nat) (hnd : items.Nodup) :
    ∀ (bound : Nat) (r emitted : List Nat), r.length ≤ bound →
      r = items.filter (fun x => decide (x ∉ emitted)) →
      ∃ t : List Nat,
        (kahnAux items deps r emitted).1 = emitted ++ t ∧
        (kahnAux items deps r emitted).2
          = items.filter (fun x => decide (x ∉ emitted ++ t)) ∧
        (∀ y ∈ (kahnAux items deps r emitted).2,
          ¬ readyB items deps (emitted ++ t) y = true) ∧
        (∀ k (hk : k < t.length),
          t.get ⟨k, hk⟩ ∈ items ∧ t.get ⟨k, hk⟩ ∉ emitted ++ t.take k ∧
          (∀ d ∈ deps (t.get ⟨k, hk⟩), d ∈ items → d ∈ emitted ++ t.take k) ∧
          (∀ y ∈ items, y ∉ emitted ++ t.take k →
            (∀ d ∈ deps y, d ∈ items → d ∈ emitted ++ t.take k) →
            items.indexOf (t.get ⟨k, hk⟩) ≤ items.indexOf y)) := by
  intro bound
  induction bound with
  | zero =>
    intro r emitted hlen hr
    have hrnil : r = [] := List.length_eq_zero.mp (Nat.le_zero.mp hlen)
    subst hrnil
    refine ⟨[], ?_, ?_, ?_, ?_⟩
    · rw [kahnAux_step_none items deps [] emitted (by rw [List.find?_nil])]
      simp
    · rw [kahnAux_step_none items deps [] emitted (by rw [List.find?_nil])]
      rw [List.append_nil, ← hr]
    · rw [kahnAux_step_none items deps [] emitted (by rw [List.find?_nil])]
      intro y hy
      exact absurd hy (List.not_mem_nil y)
    · intro k hk
      exact absurd hk (by simp)
  | succ bound ih =>
    intro r emitted hlen hr
    cases hfind : r.find? (readyB items deps emitted) with
    | none =>
      refine ⟨[], ?_, ?_, ?_, ?_⟩
      · rw [kahnAux_step_none items deps r emitted hfind]
        simp
      · rw [kahnAux_step_none items deps r emitted hfind]
        rw [List.append_nil, ← hr]
      · rw [kahnAux_step_none items deps r emitted hfind]
        intro y hy
        rw [List.append_nil]
        exact List.find?_eq_none.mp hfind y hy
      · intro k hk
        exact absurd hk (by simp)
    | some x =>
      have hxr : x ∈ r := List.mem_of_find?_eq_some hfind
      have hxready : readyB items deps emitted x = true := List.find?_some hfind
      have hxI : x ∈ items := by
        rw [hr, List.mem_filter] at hxr
        exact hxr.1
      have hxem : x ∉ emitted := by
        rw [hr, List.mem_filter, decide_eq_true_eq] at hxr
        exact hxr.2
      have hxdeps : ∀ d ∈ deps x, d ∈ items → d ∈ emitted := by
        intro d hd hdI
        rw [readyB, List.all_eq_true] at hxready
        have h := hxready d hd
        rw [decide_eq_true_eq] at h
        rcases h with h | h
        · exact absurd hdI h
        · exact h
      have hxmin : ∀ y ∈ items, y ∉ emitted →
          (∀ d ∈ deps y, d ∈ items → d ∈ emitted) → items.indexOf x ≤ items.indexOf y := by
        intro y hyI hyem hydeps
        have hyr : y ∈ r := by
          rw [hr, List.mem_filter]
          exact ⟨hyI, by simp [hyem]⟩
        have hyready : readyB items deps emitted y = true := by
          rw [readyB, List.all_eq_true]
          intro d hd
          rw [decide_eq_true_eq]
          by_cases hdI : d ∈ items
          · exact Or.inr (hydeps d hd hdI)
          · exact Or.inl hdI
        refine find?_min_of_first (fun z => items.indexOf z) _ r ?_ x hfind y hyr hyready
        rw [hr]
        exact List.Pairwise.sublist (List.filter_sublist _) (pairwise_indexOf_of_nodup items hnd)
      have hr' : r.erase x = items.filter (fun y => decide (y ∉ emitted ++ [x])) := by
        rw [hr]
        exact erase_filter_not_mem items hnd emitted x
      have hlen' : (r.erase x).length ≤ bound := by
        have h1 := List.length_erase_of_mem hxr
        have h2 : 0 < r.length := List.length_pos_of_mem hxr
        omega
      obtain ⟨t', h1', h2', h3', h4'⟩ := ih (r.erase x) (emitted ++ [x]) hlen' hr'
      have hstep := kahnAux_step_some items deps r emitted x hfind
      refine ⟨x :: t', ?_, ?_, ?_, ?_⟩
      · rw [hstep, h1']
        simp
      · rw [hstep, h2']
        apply List.filter_congr
        intro y _
        simp only [List.append_assoc, List.singleton_append]
      · rw [hstep]
        intro y hy
        have h := h3' y hy
        rw [List.append_assoc, List.singleton_append] at h
        exact h
      · intro k hk
        match k with
        | 0 =>
          refine ⟨hxI, ?_, ?_, ?_⟩
          · rw [List.take_zero, List.append_nil]
            exact hxem
          · intro d hd hdI
            rw [List.take_zero, List.append_nil]
            exact hxdeps d hd hdI
          · intro y hyI hyem hydeps
            rw [List.take_zero, List.append_nil] at hyem hydeps
            exact hxmin y hyI hyem hydeps
        | k' + 1 =>
          have hk' : k' < t'.length := by
            simpa using Nat.lt_of_succ_lt_succ hk
          have hget : (x :: t').get ⟨k' + 1, hk⟩ = t'.get ⟨k', hk'⟩ := rfl
          have htake : emitted ++ (x :: t').take (k' + 1)
              = (emitted ++ [x]) ++ t'.take k' := by
            rw [List.take_succ_cons, List.append_assoc, List.singleton_append]
          obtain ⟨c1, c2, c3, c4⟩ := h4' k' hk'
          rw [hget, htake]
          exact ⟨c1, c2, c3, c4⟩

/-- On an acyclic graph a nonempty unemitted remainder always contains a
ready element (a minimal-rank one). -/
theorem kahn_progress (items : List Nat) (deps : Nat → List Nat)
    (hac : Acyclic items deps) (emitted r : List Nat)
    (hr : r = items.filter (fun x => decide (x ∉ emitted))) (hne : r ≠ []) :
    ∃ x ∈ r, readyB items deps emitted x = true := by
  obtain ⟨rank, hrank⟩ := hac
  obtain ⟨x, hx⟩ : ∃ x, x ∈ r.argmin rank := by
    cases h : r.argmin rank with
    | none => exact absurd (List.argmin_eq_none.mp h) hne
    | some x => exact ⟨x, by rw [Option.mem_def]⟩
  have hxr : x ∈ r := List.argmin_mem hx
  have hxI : x ∈ items := by
    rw [hr, List.mem_filter] at hxr
    exact hxr.1
  refine ⟨x, hxr, ?_⟩
  rw [readyB, List.all_eq_true]
  intro d hd
  rw [decide_eq_true_eq]
  by_cases hdI : d ∈ items
  · by_cases hdem : d ∈ emitted
    · exact Or.inr hdem
    · exfalso
      have hdr : d ∈ r := by
        rw [hr, List.mem_filter]
        exact ⟨hdI, by simp [hdem]⟩
      have h1 : rank x ≤ rank d := List.le_of_mem_argmin hdr hx
      have h2 : rank d < rank x := hrank x hxI d hd hdI
      omega
  · exact Or.inl hdI

/-- An element of a take-prefix has index below the prefix length. -/
theorem indexOf_lt_of_mem_take (l : List Nat) :
    ∀ (k : Nat) (d : Nat), d ∈ l.take k → l.indexOf d < k := by
  induction l with
  | nil =>
    intro k d hd
    rw [List.take_nil] at hd
    exact absurd hd (List.not_mem_nil d)
  | cons a l' ih =>
    intro k d hd
    match k with
    | 0 =>
      rw [List.take_zero] at hd
      exact absurd hd (List.not_mem_nil d)
    | k' + 1 =>
      rw [List.take_succ_cons] at hd
      rcases List.mem_cons.mp hd with rfl | hd'
      · rw [List.indexOf_cons_self]
        omega
      · by_cases hda : d = a
        · subst hda
          rw [List.indexOf_cons_self]
          omega
        · rw [List.indexOf_cons_ne _ (Ne.symm hda)]
          have := ih k' d hd'
          omega

/-- A list whose every element avoids its own prefix has no duplicates. -/
theorem nodup_of_get_not_mem_take (l : List Nat)
    (h : ∀ k (hk : k < l.length), l.get ⟨k, hk⟩ ∉ l.take k) : l.Nodup := by
  rw [List.Nodup, List.pairwise_iff_getElem]
  intro i j hi hj hij heq
  apply h j hj
  have hmem : l[i] ∈ l.take j := by
    rw [List.mem_take_iff_getElem]
    exact ⟨i, by simp; omega, rfl⟩
  rw [heq] at hmem
  exact hmem

/-- Two greedy orders coincide. -/
theorem greedy_unique (items : List Nat) (deps : Nat → List Nat) (hnd : items.Nodup)
    (l1 l2 : List Nat) (h1 : IsGreedyOrder items deps l1) (h2 : IsGreedyOrder items deps l2) :
    l1 = l2 := by
  obtain ⟨hlen1, hprop1⟩ := h1
  obtain ⟨hlen2, hprop2⟩ := h2
  have hlen : l1.length = l2.length := by rw [hlen1, hlen2]
  have htake : ∀ k, k ≤ l1.length → l1.take k = l2.take k := by
    intro k
    induction k with
    | zero => intro _; rfl
    | succ k ihk =>
      intro hk1
      have hk : k < l1.length := by omega
      have hk2 : k < l2.length := by omega
      have hpre := ihk (by omega)
      obtain ⟨ha1, hb1, hc1, hd1⟩ := hprop1 k hk
      obtain ⟨ha2, hb2, hc2, hd2⟩ := hprop2 k hk2
      have hnb2 : l2.get ⟨k, hk2⟩ ∉ l1.take k := by
        rw [hpre]
        exact hb2
      have hnc2 : ∀ d ∈ deps (l2.get ⟨k, hk2⟩), d ∈ items → d ∈ l1.take k := by
        rw [hpre]
        exact hc2
      have hnb1 : l1.get ⟨k, hk⟩ ∉ l2.take k := by
        rw [← hpre]
        exact hb1
      have hnc1 : ∀ d ∈ deps (l1.get ⟨k, hk⟩), d ∈ items → d ∈ l2.take k := by
        rw [← hpre]
        exact hc1
      have hle1 := hd1 (l2.get ⟨k, hk2⟩) ha2 hnb2 hnc2
      have hle2 := hd2 (l1.get ⟨k, hk⟩) ha1 hnb1 hnc1
      have heq : l1.get ⟨k, hk⟩ = l2.get ⟨k, hk2⟩ :=
        (List.indexOf_inj ha1 ha2).mp (le_antisymm hle1 hle2)
      rw [List.take_succ, List.take_succ, hpre,
        List.getElem?_eq_getElem hk, List.getElem?_eq_getElem hk2]
      have hg : l1[k] = l2[k] := heq
      rw [hg]
  have hfinal := htake l1.length le_rfl
  rw [List.take_length] at hfinal
  rw [hfinal, hlen, List.take_length]

/-- The acyclic run of topological_sort: its output, as a permutation of
the items satisfying the greedy and the topological-order properties. -/
theorem toposort_acyclic_exists (items : List Nat) (deps : Nat → List Nat)
    (hnd : items.Nodup) (hac : Acyclic items deps) :
    ∃ t, topological_sort items deps = TopoResult.ok t ∧ t.Perm items ∧
      IsGreedyOrder items deps t ∧ IsTopoOrder items deps t := by
  have hr0 : items = items.filter (fun x => decide (x ∉ ([] : List Nat))) := by
    symm
    apply List.filter_eq_self.mpr
    intro x _
    simp
  obtain ⟨t, h1, h2, h3, h4⟩ :=
    kahnAux_spec items deps hnd items.length items [] le_rfl hr0
  have hprop : ∀ k (hk : k < t.length),
      t.get ⟨k, hk⟩ ∈ items ∧ t.get ⟨k, hk⟩ ∉ t.take k ∧
      (∀ d ∈ deps (t.get ⟨k, hk⟩), d ∈ items → d ∈ t.take k) ∧
      (∀ y ∈ items, y ∉ t.take k → (∀ d ∈ deps y, d ∈ items → d ∈ t.take k) →
        items.indexOf (t.get ⟨k, hk⟩) ≤ items.indexOf y) := by
    intro k hk
    have h := h4 k hk
    rwa [List.nil_append] at h
  have htnodup : t.Nodup := nodup_of_get_not_mem_take t (fun k hk => (hprop k hk).2.1)
  have htsub : t ⊆ items := by
    intro x hx
    obtain ⟨⟨k, hk⟩, hget⟩ := List.mem_iff_get.mp hx
    rw [← hget]
    exact (hprop k hk).1
  have hstuck : (kahnAux items deps items []).2 = [] := by
    by_contra hne
    obtain ⟨x, hx, hready⟩ := kahn_progress items deps hac ([] ++ t) _ h2 hne
    exact h3 x hx hready
  have hitemsub : items ⊆ t := by
    intro x hxI
    have h := h2 ▸ hstuck
    rw [List.filter_eq_nil_iff] at h
    have h5 := h x hxI
    rw [decide_eq_true_eq, not_not] at h5
    rw [List.nil_append] at h5
    exact h5
  have hperm : t.Perm items :=
    (List.subperm_of_subset htnodup htsub).antisymm (List.subperm_of_subset hnd hitemsub)
  have hlen : t.length = items.length := hperm.length_eq
  have htopo : IsTopoOrder items deps t := by
    intro x hx d hd hdI
    obtain ⟨⟨k, hk⟩, hget⟩ := List.mem_iff_get.mp hx
    subst hget
    have hdin := (hprop k hk).2.2.1 d hd hdI
    have h5 : t.indexOf d < k := indexOf_lt_of_mem_take t k d hdin
    have h6 : t.indexOf (t.get ⟨k, hk⟩) = k := List.get_indexOf htnodup ⟨k, hk⟩
    omega
  refine ⟨t, ?_, hperm, ⟨hlen, hprop⟩, htopo⟩
  rw [topological_sort_eq_kahn items deps hnd, if_pos hstuck, h1, List.nil_append]

/-- C1: on a list of distinct items with an acyclic in-set dependency
graph, topological_sort succeeds, its output is a valid topological order,
and it is the unique deterministic order emitting, at every point, the
smallest-input-index item among those with no unemitted in-set
dependency. -/
theorem topological_sort_acyclic_correct (items : List Nat) (deps : Nat → List Nat)
    (hnd : items.Nodup) (hac : Acyclic items deps) :
    ∃ out, topological_sort items deps = TopoResult.ok out ∧
      IsTopoOrder items deps out ∧ IsGreedyOrder items deps out ∧
      ∀ l, IsGreedyOrder items deps l → l = out := by
  obtain ⟨t, hok, _hperm, hgreedy, htopo⟩ := toposort_acyclic_exists items deps hnd hac
  exact ⟨t, hok, htopo, hgreedy, fun l hl => greedy_unique items deps hnd l t hl hgreedy⟩

/-- Witness for C1: the spec's scenario A graph (two items each depending
on the first). -/
theorem topological_sort_acyclic_correct_witness :
    (([10, 20, 30] : List Nat).Nodup ∧
      Acyclic [10, 20, 30] (fun x => if x = 20 then [10] else if x = 30 then [10] else [])) ∧
    (∃ out, topological_sort [10, 20, 30]
          (fun x => if x = 20 then [10] else if x = 30 then [10] else [])
        = TopoResult.ok out ∧
      IsTopoOrder [10, 20, 30] (fun x => if x = 20 then [10] else if x = 30 then [10] else []) out ∧
      IsGreedyOrder [10, 20, 30] (fun x => if x = 20 then [10] else if x = 30 then [10] else []) out ∧
      ∀ l, IsGreedyOrder [10, 20, 30]
          (fun x => if x = 20 then [10] else if x = 30 then [10] else []) l → l = out) :=
  ⟨⟨by decide, ⟨fun x => x, by decide⟩⟩,
    topological_sort_acyclic_correct [10, 20, 30]
      (fun x => if x = 20 then [10] else if x = 30 then [10] else [])
      (by decide) ⟨fun x => x, by decide⟩⟩

/-- C9: on a list of distinct items with an acyclic in-set dependency
graph, topological_sort yields every input item exactly once: the output
is a permutation of the input. -/
theorem topological_sort_yields_all (items : List Nat) (deps : Nat → List Nat)
    (hnd : items.Nodup) (hac : Acyclic items deps) :
    ∃ out, topological_sort items deps = TopoResult.ok out ∧ out.Perm items := by
  obtain ⟨t, hok, hperm, -, -⟩ := toposort_acyclic_exists items deps hnd hac
  exact ⟨t, hok, hperm⟩

/-- Witness for C9 on a chain graph. -/
theorem topological_sort_yields_all_witness :
    (([5, 7] : List Nat).Nodup ∧
      Acyclic [5, 7] (fun x => if x = 5 then [7] else [])) ∧
    (∃ out, topological_sort [5, 7] (fun x => if x = 5 then [7] else [])
        = TopoResult.ok out ∧ out.Perm [5, 7]) :=
  ⟨⟨by decide, ⟨fun x => if x = 5 then 1 else 0, by decide⟩⟩,
    topological_sort_yields_all [5, 7] (fun x => if x = 5 then [7] else [])
      (by decide) ⟨fun x => if x = 5 then 1 else 0, by decide⟩⟩

/-- The emitted items of a full greedy run are exactly the emittable
ones. -/
theorem kahn_emitted_iff_emittable (items : List Nat) (deps : Nat → List Nat)
    (hnd : items.Nodup) :
    ∀ x, x ∈ (kahnAux items deps items []).1 ↔ Emittable items deps x := by
  have hr0 : items = items.filter (fun x => decide (x ∉ ([] : List Nat))) := by
    symm
    apply List.filter_eq_self.mpr
    intro x _
    simp
  obtain ⟨t, h1, h2, h3, h4⟩ :=
    kahnAux_spec items deps hnd items.length items [] le_rfl hr0
  have hprop : ∀ k (hk : k < t.length),
      t.get ⟨k, hk⟩ ∈ items ∧
      (∀ d ∈ deps (t.get ⟨k, hk⟩), d ∈ items → d ∈ t.take k) := by
    intro k hk
    have h := h4 k hk
    rw [List.nil_append] at h
    exact ⟨h.1, h.2.2.1⟩
  have hfwd : ∀ k, ∀ (hk : k < t.length), Emittable items deps (t.get ⟨k, hk⟩) := by
    intro k
    induction k using Nat.strong_induction_on with
    | _ k ihk =>
      intro hk
      refine Emittable.intro _ (hprop k hk).1 ?_
      intro d hd hdI
      have hdin := (hprop k hk).2 d hd hdI
      rw [List.mem_take_iff_getElem] at hdin
      obtain ⟨j, hj, hjd⟩ := hdin
      have hjk : j < k := by
        simp only [lt_min_iff] at hj
        exact hj.1
      have hjt : j < t.length := by
        simp only [lt_min_iff] at hj
        exact hj.2
      have hE := ihk j hjk hjt
      have hgd : t.get ⟨j, hjt⟩ = d := hjd
      rw [hgd] at hE
      exact hE
  intro x
  constructor
  · intro hx
    rw [h1, List.nil_append] at hx
    obtain ⟨⟨k, hk⟩, hget⟩ := List.mem_iff_get.mp hx
    rw [← hget]
    exact hfwd k hk
  · intro hx
    induction hx with
    | intro x hxI hdeps ihdeps =>
      by_contra hxnot
      have hxstuck : x ∈ (kahnAux items deps items []).2 := by
        rw [h2, List.mem_filter]
        refine ⟨hxI, ?_⟩
        rw [decide_eq_true_eq]
        intro hmem
        rw [List.nil_append] at hmem
        exact hxnot (by rw [h1, List.nil_append]; exact hmem)
      apply h3 x hxstuck
      rw [readyB, List.all_eq_true]
      intro d hd
      rw [decide_eq_true_eq]
      by_cases hdI : d ∈ items
      · refine Or.inr ?_
        have hdmem := ihdeps d hd hdI
        rw [h1] at hdmem
        exact hdmem
      · exact Or.inl hdI

/-- Characterisation of the stuck remainder of a full greedy run. -/
theorem kahn_stuck_iff (items : List Nat) (deps : Nat → List Nat) (hnd : items.Nodup) :
    ∀ x, x ∈ (kahnAux items deps items []).2 ↔
      x ∈ items ∧ x ∉ (kahnAux items deps items []).1 := by
  have hr0 : items = items.filter (fun x => decide (x ∉ ([] : List Nat))) := by
    symm
    apply List.filter_eq_self.mpr
    intro x _
    simp
  obtain ⟨t, h1, h2, -, -⟩ :=
    kahnAux_spec items deps hnd items.length items [] le_rfl hr0
  intro x
  rw [h2, h1, List.mem_filter, decide_eq_true_eq]

/-- The stuck remainder is a sublist of the items (discovery order). -/
theorem kahn_stuck_sublist (items : List Nat) (deps : Nat → List Nat) (hnd : items.Nodup) :
    List.Sublist (kahnAux items deps items []).2 items := by
  have hr0 : items = items.filter (fun x => decide (x ∉ ([] : List Nat))) := by
    symm
    apply List.filter_eq_self.mpr
    intro x _
    simp
  obtain ⟨t, -, h2, -, -⟩ :=
    kahnAux_spec items deps hnd items.length items [] le_rfl hr0
  rw [h2]
  exact List.filter_sublist items

/-- An emittable node lies on no dependency cycle. -/
theorem emittable_not_inCycle (items : List Nat) (deps : Nat → List Nat) :
    ∀ x, Emittable items deps x → ¬ InCycle items deps x := by
  intro x hx
  induction hx with
  | intro x hxI hdeps ih =>
    intro hcyc
    rw [InCycle] at hcyc
    obtain ⟨d, hstep, hrtg⟩ := Relation.TransGen.head'_iff.mp hcyc
    obtain ⟨hd_dep, hd_items⟩ := hstep
    have hdd : Relation.TransGen (depStep items deps) d d :=
      Relation.TransGen.tail' hrtg ⟨hd_dep, hd_items⟩
    exact ih d hd_dep hd_items hdd

/-- C3 amended: on a graph with a cycle, topological_sort raises
CycleError reporting, in discovery order, exactly the nodes the greedy
emission cannot emit: the cycle members together with every node
transitively blocked on them, hence including nodes merely blocked
downstream of the cycle. -/
theorem topological_sort_cycle_reports_remainder (items : List Nat) (deps : Nat → List Nat)
    (hnd : items.Nodup) (hcyc : ∃ x ∈ items, InCycle items deps x) :
    ∃ stuck, topological_sort items deps = TopoResult.cycleError stuck ∧ stuck ≠ [] ∧
      List.Sublist stuck items ∧
      (∀ x, x ∈ stuck ↔ x ∈ items ∧ ¬ Emittable items deps x) := by
  obtain ⟨x0, hx0I, hx0c⟩ := hcyc
  have hx0stuck : x0 ∈ (kahnAux items deps items []).2 := by
    rw [kahn_stuck_iff items deps hnd]
    refine ⟨hx0I, ?_⟩
    intro hmem
    exact emittable_not_inCycle items deps x0
      ((kahn_emitted_iff_emittable items deps hnd x0).mp hmem) hx0c
  have hne : (kahnAux items deps items []).2 ≠ [] := by
    intro h
    rw [h] at hx0stuck
    exact List.not_mem_nil x0 hx0stuck
  refine ⟨(kahnAux items deps items []).2, ?_, hne, kahn_stuck_sublist items deps hnd, ?_⟩
  · rw [topological_sort_eq_kahn items deps hnd, if_neg hne]
  · intro x
    rw [kahn_stuck_iff items deps hnd x]
    constructor
    · rintro ⟨hxI, hxnot⟩
      exact ⟨hxI, fun hE => hxnot ((kahn_emitted_iff_emittable items deps hnd x).mpr hE)⟩
    · rintro ⟨hxI, hxnE⟩
      exact ⟨hxI, fun hmem => hxnE ((kahn_emitted_iff_emittable items deps hnd x).mp hmem)⟩

/-- Node 0 of the two-node graph lies on a cycle. -/
theorem cexDeps2_cycle : InCycle [0, 1] cexDeps2 0 :=
  Relation.TransGen.head
    (show depStep [0, 1] cexDeps2 0 1 from ⟨by decide, by decide⟩)
    (Relation.TransGen.single
      (show depStep [0, 1] cexDeps2 1 0 from ⟨by decide, by decide⟩))

/-- Witness for the amended C3: the spec's scenario B two-cycle. -/
theorem topological_sort_cycle_reports_remainder_witness :
    (([0, 1] : List Nat).Nodup ∧ (∃ x ∈ ([0, 1] : List Nat), InCycle [0, 1] cexDeps2 x)) ∧
    (∃ stuck, topological_sort [0, 1] cexDeps2 = TopoResult.cycleError stuck ∧ stuck ≠ [] ∧
      List.Sublist stuck [0, 1] ∧
      (∀ x, x ∈ stuck ↔ x ∈ ([0, 1] : List Nat) ∧ ¬ Emittable [0, 1] cexDeps2 x)) :=
  ⟨⟨by decide, ⟨0, by decide, cexDeps2_cycle⟩⟩,
    topological_sort_cycle_reports_remainder [0, 1] cexDeps2 (by decide)
      ⟨0, by decide, cexDeps2_cycle⟩⟩

/-- C3 counterexample: in the three-node graph 0 <-> 1 <- 2 the node 2 is
merely blocked downstream of the cycle - it lies on no cycle - yet the
CycleError reports it together with the cycle members, contradicting the
claim that only the strongly-connected remainder is reported. -/
theorem topological_sort_cycle_counterexample :
    topological_sort [0, 1, 2] cexDeps = TopoResult.cycleError [0, 1, 2] ∧
      (2 ∈ ([0, 1, 2] : List Nat)) ∧ ¬ InCycle [0, 1, 2] cexDeps 2 := by
  refine ⟨by rfl, by decide, ?_⟩
  intro hcyc
  rw [InCycle] at hcyc
  obtain ⟨d, hstep, hrtg⟩ := Relation.TransGen.head'_iff.mp hcyc
  have hd1 : d = 1 := by
    rcases hstep with ⟨hd_dep, -⟩
    simpa [cexDeps] using hd_dep
  subst hd1
  have hreach : ∀ y, Relation.ReflTransGen (depStep [0, 1, 2] cexDeps) 1 y →
      y = 0 ∨ y = 1 := by
    intro y hy
    induction hy with
    | refl => exact Or.inr rfl
    | @tail b c hab hbc ihab =>
      rcases hbc with ⟨hc_dep, -⟩
      rcases ihab with rfl | rfl
      · simp [cexDeps] at hc_dep
        exact Or.inr hc_dep
      · simp [cexDeps] at hc_dep
        exact Or.inl hc_dep
  rcases hreach 2 hrtg with h | h <;> omega

end YoyoSpec
